import Mathlib

/-!
Verification of the dice-notation core of the `mid-bot` repository.

The definitions below are a shallow embedding of `src/py/src/dice_details.py`
(set/dice algebra: `dice_roll`, selectors, `set_op_keep`, `set_op_count`,
`dice_reroll`) and of the relevant parts of `src/py/src/dice.py`
(lexer `symbolize`, `_repeat_function`, the old `MultiExpr`).

Modelling conventions:
* Python numbers that may be `int` or `float` are modelled by `PyNum`
  (`float` carried as an exact rational; `float.is_integer()` becomes
  "denominator = 1").
* `random.randint(lo, hi)` is modelled by drawing a raw natural number from an
  entropy stream `g : Nat → Nat` at a stream position and mapping it into
  `[lo, hi]` by `lo + r % (hi - lo + 1)`; functions that roll dice thread the
  stream position explicitly, so consumption of randomness is observable.
* Raised Python exceptions become `Except String` errors.
* Set elements' items are integers (`Int`), which covers every value the dice
  algebra itself produces.
-/

namespace MidBot

/-- A Python number that is either an `int` or a `float` (kept exact). -/
inductive PyNum where
  | int (n : Int)
  | float (q : Rat)
deriving Repr, DecidableEq

/-- Numeric value of a `PyNum`. -/
def PyNum.toRat : PyNum → Rat
  | .int n => (n : Rat)
  | .float q => q

/-- Whether a `PyNum` is integral (`int`, or a `float` with `is_integer()`). -/
def PyNum.isIntegral : PyNum → Bool
  | .int _ => true
  | .float q => q.den == 1

/-- Embedding of `force_integral` (dice_details.py lines 12-18): an `int`
passes through; a `float` is accepted only if integral; otherwise
`ValueError`. -/
def force_integral (value : PyNum) (description : String) : Except String Int :=
  match value with
  | .int n => .ok n
  | .float q =>
      if q.den = 1 then .ok q.num
      else .error s!"Expected integer # {description}: float"

namespace DiceDetails

/-- Embedding of `SetElement` (dice_details.py lines 23-26): one element of a
set, with its dropped/added flags. -/
structure SetElement where
  item : Int
  dropped : Bool
  added : Bool
deriving Repr, DecidableEq

/-- `SetResult.__init__` comprehension: wrap raw items as fresh elements. -/
def mkSetElements (items : List Int) : List SetElement :=
  items.map (fun i => { item := i, dropped := false, added := false })

/-- `SetResult.get_all_count`. -/
def get_all_count (elements : List SetElement) : Nat :=
  elements.length

/-- `SetResult.get_all_items`. -/
def get_all_items (elements : List SetElement) : List Int :=
  elements.map (·.item)

/-- `SetResult.get_remaining`: items of non-dropped elements. -/
def get_remaining (elements : List SetElement) : List Int :=
  (elements.filter (fun e => !e.dropped)).map (·.item)

/-- `SetResult.get_remaining_count`. -/
def get_remaining_count (elements : List SetElement) : Nat :=
  (get_remaining elements).length

/-- `SetResult.get_remaining_enumerated`: `(index, item)` pairs of the
non-dropped elements. -/
def get_remaining_enumerated (elements : List SetElement) : List (Nat × Int) :=
  (elements.enum.filter (fun p => !p.2.dropped)).map (fun p => (p.1, p.2.item))

/-- `SetResult.total` with a custom fold function: `functools.reduce` over the
remaining items, `0` if none remain. -/
def totalWith (f : Int → Int → Int) (elements : List SetElement) : Int :=
  match get_remaining elements with
  | [] => 0
  | v :: vs => vs.foldl f v

/-- `SetResult.total` with the default `operator.add`. -/
def total (elements : List SetElement) : Int :=
  totalWith (· + ·) elements

/-- One assignment `elements[i] = SetElement(item, dropped=True, added)` of
`drop_indices`. -/
def drop_index_step (es : List SetElement) (i : Nat) : List SetElement :=
  match es.get? i with
  | some e => es.set i { item := e.item, dropped := true, added := e.added }
  | none => es

/-- `SetResult.drop_indices`: mark the elements at the given indices dropped,
keeping item and `added` flag. -/
def drop_indices (elements : List SetElement) (indices : List Nat) : List SetElement :=
  indices.foldl drop_index_step elements

/-- A freshly appended element: not dropped, marked `added`. -/
def addedElem (v : Int) : SetElement :=
  { item := v, dropped := false, added := true }

/-- `SetResult.append_items`: append raw items as fresh, `added` elements. -/
def append_items (elements : List SetElement) (items : List Int) : List SetElement :=
  elements ++ items.map addedElem

/-- `SetResult.insert_item`: insert an `added` element before `index`. -/
def insert_item (elements : List SetElement) (index : Nat) (item : Int)
    (dropped : Bool) : List SetElement :=
  elements.insertIdx index { item := item, dropped := dropped, added := true }

/-- A generic set-result object: its elements plus the `result_value` set by
`set_value` (`none` means the value was never overridden and the object itself
is the value). -/
structure SetResult where
  elements : List SetElement
  resultValue : Option Int
deriving Repr, DecidableEq

/-- Stable insertion sort used to model Python's stable `sorted`: an element is
inserted before the first list entry it must strictly precede. -/
def insSorted (lt : α → α → Bool) (x : α) : List α → List α
  | [] => [x]
  | y :: ys => if lt x y then x :: y :: ys else y :: insSorted lt x ys

/-- Stable sort by repeated insertion (model of Python `sorted`). -/
def insSort (lt : α → α → Bool) (l : List α) : List α :=
  l.foldl (fun acc x => insSorted lt x acc) []

/-- `sorted(pairs, key=lambda p: p[1], reverse=high)`: stable sort of
`(index, item)` pairs by item, descending when `high`. -/
def sortPairsByItem (pairs : List (Nat × Int)) (high : Bool) : List (Nat × Int) :=
  insSort (fun a b => if high then b.2 < a.2 else a.2 < b.2) pairs

/-- `_select_conditional` (dice_details.py lines 400-407): indices of the
remaining elements whose value satisfies the condition. -/
def _select_conditional (elements : List SetElement) (condition : Int → Bool) :
    List Nat :=
  ((get_remaining_enumerated elements).filter (fun p => condition p.2)).map (·.1)

/-- `_select_low_high` (dice_details.py lines 425-438): indices of the `n`
lowest (or highest) remaining elements; `ValueError` on negative `n`. -/
def _select_low_high (elements : List SetElement) (n : PyNum) (high : Bool) :
    Except String (List Nat) := do
  let n ← force_integral n "items to drop"
  if n < 0 then
    .error s!"Can't drop negative # of items ({n})"
  else if n = 0 then
    .ok []
  else
    .ok (((sortPairsByItem (get_remaining_enumerated elements) high).take n.toNat).map (·.1))

/-- The closed set of selector strategies in `dice_details.py`:
`ConditionalSelector` (arbitrary predicate on the element value) and
`LowHighSelector` (`n` lowest/highest). -/
inductive SetSelector where
  | cond (condition : Int → Bool)
  | lowHigh (num : PyNum) (high : Bool)

/-- `EvenOddSelector` (dice_details.py lines 441-447): a `ConditionalSelector`
matching odd (`x % 2 != 0`) or even (`x % 2 == 0`) values. -/
def EvenOddSelector (odd : Bool) : SetSelector :=
  if odd then .cond (fun x => x % 2 != 0) else .cond (fun x => x % 2 == 0)

/-- `SetSelector.apply`: dispatch to the selector's strategy. -/
def SetSelector.apply (sel : SetSelector) (elements : List SetElement) :
    Except String (List Nat) :=
  match sel with
  | .cond c => .ok (_select_conditional elements c)
  | .lowHigh n high => _select_low_high elements n high

/-- `invert_selection` (dice_details.py lines 450-451). -/
def invert_selection (all_count : Nat) (selected : List Nat) : List Nat :=
  (List.range all_count).filter (fun i => !selected.contains i)

/-- Model of `random.randint(lo, hi)`: map one raw entropy value into
`[lo, hi]`. -/
def randint (lo hi : Int) (r : Nat) : Int :=
  lo + (r : Int) % (hi - lo + 1)

/-- `single_roll` (dice_details.py lines 454-458), reading the entropy stream
`g` at position `pos`; a `d0` yields `0` and consumes no randomness. Returns
the rolled value and the new stream position. -/
def single_roll (size : Int) (g : Nat → Nat) (pos : Nat) : Int × Nat :=
  if size = 0 then (0, pos) else (randint 1 size (g pos), pos + 1)

/-- The `for i in range(count)` loop of `dice_roll`: roll `count` dice in
sequence. -/
def roll_list (count : Nat) (size : Int) (g : Nat → Nat) (pos : Nat) :
    List Int × Nat :=
  match count with
  | 0 => ([], pos)
  | n + 1 =>
      let (v, pos') := single_roll size g pos
      let (vs, pos'') := roll_list n size g pos'
      (v :: vs, pos'')

/-- `DiceValues`: a set of rolled dice together with the die face count; its
`result_value` is set to `total()` on construction. -/
structure DiceValues where
  dice_size : Int
  elements : List SetElement
  resultValue : Int
deriving Repr, DecidableEq

/-- `DiceValues.__init__` from raw rolled items. -/
def mkDiceValues (size : Int) (items : List Int) : DiceValues :=
  let es := mkSetElements items
  { dice_size := size, elements := es, resultValue := total es }

/-- `DiceValues.copy` (dice_details.py lines 214-215): a fresh `DiceValues`
over the same elements (its constructor recomputes `result_value`). -/
def DiceValues.copy (d : DiceValues) : DiceValues :=
  { dice_size := d.dice_size, elements := d.elements, resultValue := total d.elements }

/-- `dice_roll` (dice_details.py lines 461-473). Returns the result (or the
raised `ValueError`) together with the advanced entropy-stream position. -/
def dice_roll (count size : PyNum) (g : Nat → Nat) (pos : Nat) :
    Except String DiceValues × Nat :=
  match force_integral count "dice count" with
  | .error m => (.error m, pos)
  | .ok c =>
      if size.toRat < 0 then
        (.error s!"Negative dice don't exist (d{0})", pos)
      else
        match force_integral size "dice size" with
        | .error m => (.error m, pos)
        | .ok s =>
            if c < 0 then
              (.error s!"Can't roll a negative number of dice ({c})", pos)
            else
              let (rolls, pos') := roll_list c.toNat s g pos
              (.ok (mkDiceValues s rolls), pos')

/-- `MultiExpr.__init__`: a collection whose value resolves to the single
remaining item when exactly one element remains undropped. -/
def mkMultiExpr (elements : List SetElement) : SetResult :=
  if get_remaining_count elements = 1 then
    { elements := elements, resultValue := some ((get_remaining elements).headD 0) }
  else
    { elements := elements, resultValue := none }

/-- `SuccessValues.__init__`: a `MultiExpr` whose value is then set to the
remaining-element count. -/
def mkSuccessValues (elements : List SetElement) : SetResult :=
  let m := mkMultiExpr elements
  { elements := m.elements, resultValue := some ((get_remaining_count m.elements : Int)) }

/-- `set_op_count` (dice_details.py lines 480-489): wrap the elements as
`SuccessValues`, drop the non-counted side, and set the value to the counted
side's cardinality. -/
def set_op_count (setr : SetResult) (selected : List Nat) (invert : Bool) : SetResult :=
  let result := mkSuccessValues setr.elements
  let count : Int :=
    if invert then (get_remaining_count result.elements : Int) - selected.length
    else (selected.length : Int)
  let to_drop :=
    if invert then selected
    else invert_selection (get_all_count result.elements) selected
  { elements := drop_indices result.elements to_drop, resultValue := some count }

/-- `set_op_keep` (dice_details.py lines 496-503): copy the set, drop the
complement of the selection (or the selection itself when `invert`), and set
the value to the new total. -/
def set_op_keep (setr : SetResult) (selected : List Nat) (invert : Bool) : SetResult :=
  let result : SetResult := { elements := setr.elements, resultValue := setr.resultValue }
  let to_drop :=
    if invert then selected
    else invert_selection (get_all_count result.elements) selected
  let es := drop_indices result.elements to_drop
  { elements := es, resultValue := some (total es) }

/-- One entry of the `reroll_bases` bookkeeping dict in `dice_reroll`: an
original (base) index maps to the list of reroll indices descending from it; a
rerolled index maps back to its base index. -/
inductive RBEntry where
  | blist (children : List Nat)
  | bint (base : Nat)
deriving Repr, DecidableEq

/-- The `reroll_bases` dict, modelled as an insertion-ordered association list
with unique keys (Python dicts iterate in insertion order). -/
abbrev RBDict := List (Nat × RBEntry)

/-- Dict lookup. -/
def rbLookup (d : RBDict) (k : Nat) : Option RBEntry :=
  (d.find? (fun p => p.1 == k)).map (·.2)

/-- Dict assignment: replace in place when the key exists, else append. -/
def rbSet (d : RBDict) (k : Nat) (v : RBEntry) : RBDict :=
  if (d.find? (fun p => p.1 == k)).isSome then
    d.map (fun p => if p.1 == k then (k, v) else p)
  else
    d ++ [(k, v)]

/-- The `reroll_bases` updates of one iteration of the `for i in should_reroll`
loop of `_dice_reroll_append`: find the base index this reroll descends from,
point the appended index at it, and push the appended index onto the base's
child list. -/
def rr_step_dict (rb : RBDict) (appended_index i : Nat) : RBDict :=
  let step : RBDict × Nat :=
    match rbLookup rb i with
    | none => (rbSet rb i (.blist []), i)
    | some (.bint b) => (rb, b)
    | some (.blist _) => (rb, i)
  let rb2 := rbSet step.1 appended_index (.bint step.2)
  match rbLookup rb2 step.2 with
  | some (.blist l) => rbSet rb2 step.2 (.blist (appended_index :: l))
  | _ => rb2

/-- The `for i in should_reroll` loop body of `_dice_reroll_append`: thread the
`reroll_bases` dict, the `appended_index` counter and the entropy position,
returning the updated dict, the `new_rolls` list, and the final position. -/
def rr_append_loop (size : Int) (g : Nat → Nat) :
    List Nat → RBDict → Nat → Nat → RBDict × List Int × Nat
  | [], rb, _, pos => (rb, [], pos)
  | i :: rest, rb, appended_index, pos =>
      let rolled := single_roll size g pos
      let rec_result := rr_append_loop size g rest (rr_step_dict rb appended_index i)
        (appended_index + 1) rolled.2
      (rec_result.1, rolled.1 :: rec_result.2.1, rec_result.2.2)

/-- `_dice_reroll_append` (dice_details.py lines 509-537): drop every index in
`should_reroll` in a copy, append one fresh roll per dropped index, and record
the base/child relations in `reroll_bases`. -/
def _dice_reroll_append (dice : DiceValues) (should_reroll : List Nat)
    (reroll_bases : RBDict) (g : Nat → Nat) (pos : Nat) :
    DiceValues × RBDict × Nat :=
  let temp_dice := dice.copy
  let looped := rr_append_loop dice.dice_size g should_reroll reroll_bases
    (get_all_count dice.elements) pos
  let new_rolls := looped.2.1
  let es := append_items (drop_indices temp_dice.elements should_reroll) new_rolls
  ({ dice_size := temp_dice.dice_size, elements := es, resultValue := total es },
   looped.1, looped.2.2)

/-- The `while rerolls < max_rerolls` loop of `dice_reroll`, with the remaining
round budget as fuel. The last component of the result is a ghost trace holding
each round's `should_reroll` list (it does not influence the computation). -/
def reroll_loop (selector : SetSelector) (temp : DiceValues) (rb : RBDict)
    (fuel : Nat) (g : Nat → Nat) (pos : Nat) :
    Except String (DiceValues × RBDict × Nat × List (List Nat)) :=
  match fuel with
  | 0 => .ok (temp, rb, pos, [])
  | fuel + 1 =>
      match selector.apply temp.elements with
      | .error m => .error m
      | .ok should_reroll =>
          if should_reroll.isEmpty then .ok (temp, rb, pos, [])
          else
            let stepped := _dice_reroll_append temp should_reroll rb g pos
            match reroll_loop selector stepped.1 stepped.2.1 fuel g stepped.2.2 with
            | .error m => .error m
            | .ok (t, r, p, tr) => .ok (t, r, p, should_reroll :: tr)

/-- `REROLL_CAP` (dice_details.py line 9). -/
def REROLL_CAP : Nat := 99

/-- `dice_reroll` (dice_details.py lines 544-593): repeatedly reroll matching
dice (capped at `max_rerolls` rounds), then rebuild the result by inserting
each new roll directly after the base die it descends from; with `keep = False`
the triggering dice are dropped instead of kept. The last component of the
result is the ghost trace of per-round selector matches. -/
def dice_reroll (dice : DiceValues) (selector : SetSelector) (max_rerolls : Nat)
    (keep : Bool) (g : Nat → Nat) (pos : Nat) :
    Except String (DiceValues × Nat × List (List Nat)) :=
  match reroll_loop selector dice.copy [] max_rerolls g pos with
  | .error m => .error m
  | .ok (temp, rb, pos', trace) =>
      let result := dice.copy
      let base_mapping : List (Nat × List Nat) := rb.filterMap (fun p =>
        match p.2 with
        | .blist children =>
            if p.1 < get_all_count dice.elements then some (p.1, children) else none
        | .bint _ => none)
      let base_mapping := insSort (fun a b => b.1 < a.1) base_mapping
      let unmapped_items := get_all_items temp.elements
      let res0 :=
        if !keep then drop_indices result.elements (base_mapping.map (·.1))
        else result.elements
      let res1 := base_mapping.foldl (fun es bc =>
          (List.range bc.2.length).foldl (fun es j =>
            let should_drop := (j != 0) && !keep
            let roll_value := unmapped_items.getD (bc.2.getD j 0) 0
            insert_item es (bc.1 + 1) roll_value should_drop) es) res0
      .ok ({ dice_size := dice.dice_size, elements := res1, resultValue := total res1 },
           pos', trace)

/-- Placeholder element used as the `getD` default when observing an element
list (its values never matter at in-range indices). -/
def elem0 : SetElement :=
  { item := 0, dropped := false, added := false }

/-- Observation: is the element at index `i` dropped (out-of-range reads give
`false`)? -/
def droppedAt (elements : List SetElement) (i : Nat) : Bool :=
  (elements.getD i elem0).dropped

/-- Observation: the indices of the dropped elements. -/
def dropped_indices (elements : List SetElement) : List Nat :=
  (elements.enum.filter (fun p => p.2.dropped)).map (·.1)

/-! ### Heap-level model of the set operators

Python objects mutate a shared heap; to express that `set_op_keep`,
`set_op_count` and `dice_reroll` leave their *input* object untouched, the
element lists live in an explicit store addressed by allocation order, and the
operators are re-traced at that level. `SetResult.__init__` (and hence every
`copy()`) allocates a fresh element list, so all writes land on fresh
addresses. -/

/-- The store of element lists; an address is an index into the store. -/
abbrev Store := List (List SetElement)

/-- Allocate a fresh list (Python list construction), returning its address. -/
def alloc (h : Store) (l : List SetElement) : Store × Nat :=
  (h ++ [l], h.length)

/-- Read the list at an address. -/
def readH (h : Store) (a : Nat) : List SetElement :=
  h.getD a []

/-- Overwrite the list at an address (in-place list mutation). -/
def writeH (h : Store) (a : Nat) (l : List SetElement) : Store :=
  h.set a l

/-- A set-result object: a pointer to its element list plus its non-aliased
scalar fields. -/
structure SetObj where
  addr : Nat
  dice_size : Int
  resultValue : Option Int
deriving Repr, DecidableEq

/-- `copy()` at heap level: `__init__` re-wraps the source's elements into a
fresh list (same `SetElement` contents, new list object). -/
def copyH (h : Store) (o : SetObj) : Store × SetObj :=
  let fresh := alloc h (readH h o.addr)
  (fresh.1, { addr := fresh.2, dice_size := o.dice_size, resultValue := o.resultValue })

/-- `drop_indices` at heap level: in-place mutation of the object's list. -/
def drop_indicesH (h : Store) (o : SetObj) (indices : List Nat) : Store :=
  writeH h o.addr (drop_indices (readH h o.addr) indices)

/-- `set_op_keep` re-traced at heap level. -/
def set_op_keepH (h : Store) (o : SetObj) (selected : List Nat) (invert : Bool) :
    Store × SetObj :=
  let c := copyH h o
  let result := c.2
  let to_drop :=
    if invert then selected
    else invert_selection (get_all_count (readH c.1 result.addr)) selected
  let h2 := drop_indicesH c.1 result to_drop
  (h2, { addr := result.addr, dice_size := result.dice_size
         , resultValue := some (total (readH h2 result.addr)) })

/-- `set_op_count` re-traced at heap level (`SuccessValues(setr.elements)`
allocates a fresh list over the same elements). -/
def set_op_countH (h : Store) (o : SetObj) (selected : List Nat) (invert : Bool) :
    Store × SetObj :=
  let fresh := alloc h (readH h o.addr)
  let result : SetObj := { addr := fresh.2, dice_size := o.dice_size
                           , resultValue := (mkSuccessValues (readH h o.addr)).resultValue }
  let count : Int :=
    if invert then (get_remaining_count (readH fresh.1 result.addr) : Int) - selected.length
    else (selected.length : Int)
  let to_drop :=
    if invert then selected
    else invert_selection (get_all_count (readH fresh.1 result.addr)) selected
  let h2 := drop_indicesH fresh.1 result to_drop
  (h2, { addr := result.addr, dice_size := result.dice_size, resultValue := some count })

/-- `_dice_reroll_append` re-traced at heap level: all mutation happens on the
freshly copied `temp_dice`. -/
def _dice_reroll_appendH (h : Store) (temp : SetObj) (should_reroll : List Nat)
    (reroll_bases : RBDict) (g : Nat → Nat) (pos : Nat) :
    Store × SetObj × RBDict × Nat :=
  let c := copyH h temp
  let looped := rr_append_loop temp.dice_size g should_reroll reroll_bases
    (get_all_count (readH h temp.addr)) pos
  let new_rolls := looped.2.1
  let h2 := writeH c.1 c.2.addr
    (append_items (drop_indices (readH c.1 c.2.addr) should_reroll) new_rolls)
  let obj : SetObj := { addr := c.2.addr, dice_size := c.2.dice_size
                        , resultValue := some (total (readH h2 c.2.addr)) }
  (h2, obj, looped.1, looped.2.2)

/-- The reroll `while` loop re-traced at heap level. -/
def reroll_loopH (selector : SetSelector) (h : Store) (temp : SetObj) (rb : RBDict)
    (fuel : Nat) (g : Nat → Nat) (pos : Nat) :
    Except String (Store × SetObj × RBDict × Nat) :=
  match fuel with
  | 0 => .ok (h, temp, rb, pos)
  | fuel + 1 =>
      match selector.apply (readH h temp.addr) with
      | .error m => .error m
      | .ok should_reroll =>
          if should_reroll.isEmpty then .ok (h, temp, rb, pos)
          else
            let stepped := _dice_reroll_appendH h temp should_reroll rb g pos
            reroll_loopH selector stepped.1 stepped.2.1 stepped.2.2.1 fuel g stepped.2.2.2

/-- `dice_reroll` re-traced at heap level. -/
def dice_rerollH (h : Store) (dice : SetObj) (selector : SetSelector)
    (max_rerolls : Nat) (keep : Bool) (g : Nat → Nat) (pos : Nat) :
    Except String (Store × SetObj × Nat) :=
  let c0 := copyH h dice
  match reroll_loopH selector c0.1 c0.2 [] max_rerolls g pos with
  | .error m => .error m
  | .ok (h1, temp, rb, pos') =>
      let c1 := copyH h1 dice
      let h2 := c1.1
      let result := c1.2
      let base_mapping : List (Nat × List Nat) := rb.filterMap (fun p =>
        match p.2 with
        | .blist children =>
            if p.1 < get_all_count (readH h2 dice.addr) then some (p.1, children) else none
        | .bint _ => none)
      let base_mapping := insSort (fun a b => b.1 < a.1) base_mapping
      let unmapped_items := get_all_items (readH h2 temp.addr)
      let h3 :=
        if !keep then drop_indicesH h2 result (base_mapping.map (·.1))
        else h2
      let h4 := base_mapping.foldl (fun hh bc =>
          (List.range bc.2.length).foldl (fun hh j =>
            let should_drop := (j != 0) && !keep
            let roll_value := unmapped_items.getD (bc.2.getD j 0) 0
            writeH hh result.addr
              (insert_item (readH hh result.addr) (bc.1 + 1) roll_value should_drop)) hh) h3
      .ok (h4, { addr := result.addr, dice_size := result.dice_size
                 , resultValue := some (total (readH h4 result.addr)) }, pos')

end DiceDetails

namespace Dice

/-! ### Embedding of the lexer of `src/py/src/dice.py` (`TOKEN_SPEC`,
`symbolize`). The token pattern is a first-match-wins alternation of the
token-class regexes, tried at each position in order. -/

/-- The token classes of `TOKEN_SPEC` (dice.py lines 18-33). -/
inductive TokKind where
  | NUMBER | KEYWORD | DICE | DIETYPE | SETOP | SETSEL | COMP | OP | SEP
  | END | SKIP | MISMATCH
deriving Repr, DecidableEq

/-- One lexical match: its class and matched characters. -/
structure RawToken where
  kind : TokKind
  text : List Char
deriving Repr, DecidableEq

/-- Greedy `\d+` match. -/
def takeDigits (cs : List Char) : List Char × List Char :=
  (cs.takeWhile Char.isDigit, cs.dropWhile Char.isDigit)

/-- `NUMBER`: `\d+(\.\d*)?`. -/
def matchNumber (cs : List Char) : Option (List Char × List Char) :=
  let d := takeDigits cs
  if d.1.isEmpty then none
  else
    match d.2 with
    | '.' :: rest =>
        let f := takeDigits rest
        some (d.1 ++ '.' :: f.1, f.2)
    | rest => some (d.1, rest)

/-- First literal of the list that is a prefix of the input (regex
alternation order). -/
def matchAlts (alts : List (List Char)) (cs : List Char) :
    Option (List Char × List Char) :=
  match alts with
  | [] => none
  | a :: rest =>
      if a.isPrefixOf cs then some (a, cs.drop a.length)
      else matchAlts rest cs

/-- `KEYWORD`: `C|choose|repeat|sqrt|fact|agg` (dice.py `KEYWORDS`). -/
def matchKeyword (cs : List Char) : Option (List Char × List Char) :=
  matchAlts [['C'], "choose".toList, "repeat".toList, "sqrt".toList,
             "fact".toList, "agg".toList] cs

/-- `SETOP`: `~?\?|[kp]|[!x]o?|rr?`. -/
def matchSetOp (cs : List Char) : Option (List Char × List Char) :=
  matchAlts [['~', '?'], ['?'], ['k'], ['p'], ['!', 'o'], ['!'], ['x', 'o'], ['x'],
             ['r', 'r'], ['r']] cs

/-- `SETSEL`: `[hl]|even|odd`. -/
def matchSetSel (cs : List Char) : Option (List Char × List Char) :=
  matchAlts [['h'], ['l'], "even".toList, "odd".toList] cs

/-- `COMP`: `[><~]=|[><=]`. -/
def matchComp (cs : List Char) : Option (List Char × List Char) :=
  matchAlts [['>', '='], ['<', '='], ['~', '='], ['>'], ['<'], ['=']] cs

/-- `OP`: `[+\-*×/÷%^()]`. -/
def matchOp (cs : List Char) : Option (List Char × List Char) :=
  matchAlts [['+'], ['-'], ['*'], ['×'], ['/'], ['÷'], ['%'], ['^'], ['('], [')']] cs

/-- `SKIP`: `[ \t]+`. -/
def matchSkip (cs : List Char) : Option (List Char × List Char) :=
  let sp := cs.takeWhile (fun c => c = ' ' ∨ c = '\t')
  if sp.isEmpty then none else some (sp, cs.drop sp.length)

/-- One step of the master pattern: try each token class in `TOKEN_SPEC`
order; `MISMATCH` (`.`) catches any single character. -/
def nextToken (cs : List Char) : Option RawToken :=
  match cs with
  | [] => none
  | c :: _rest =>
      match matchNumber cs with
      | some m => some ⟨.NUMBER, m.1⟩
      | none =>
      match matchKeyword cs with
      | some m => some ⟨.KEYWORD, m.1⟩
      | none =>
      if c = 'd' then some ⟨.DICE, [c]⟩ else
      if c = 'c' ∨ c = 'F' then some ⟨.DIETYPE, [c]⟩ else
      match matchSetOp cs with
      | some m => some ⟨.SETOP, m.1⟩
      | none =>
      match matchSetSel cs with
      | some m => some ⟨.SETSEL, m.1⟩
      | none =>
      match matchComp cs with
      | some m => some ⟨.COMP, m.1⟩
      | none =>
      match matchOp cs with
      | some m => some ⟨.OP, m.1⟩
      | none =>
      if c = ',' then some ⟨.SEP, [c]⟩ else
      if c = ';' ∨ c = '\n' then some ⟨.END, [c]⟩ else
      match matchSkip cs with
      | some m => some ⟨.SKIP, m.1⟩
      | none => some ⟨.MISMATCH, [c]⟩

/-- Scan the whole input (`finditer`), with fuel for termination; every
matched token is nonempty, so the input length is enough fuel. -/
def lexAux (fuel : Nat) (cs : List Char) : List RawToken :=
  match fuel with
  | 0 => []
  | fuel + 1 =>
      match nextToken cs with
      | none => []
      | some t => t :: lexAux fuel (cs.drop t.text.length)

/-- Tokenize a formula string. -/
def lex (s : String) : List RawToken :=
  lexAux s.toList.length s.toList

/-- Parse a digit run as a natural number. -/
def digitsToNat (ds : List Char) : Nat :=
  ds.foldl (fun a c => 10 * a + (c.toNat - '0'.toNat)) 0

/-- `NUMBER` token to Python value: `float` if a `.` is present, else `int`. -/
def numberValue (text : List Char) : PyNum :=
  if text.contains '.' then
    let ip := text.takeWhile (· ≠ '.')
    let fp := (text.dropWhile (· ≠ '.')).drop 1
    .float ((digitsToNat ip : Rat) + (digitsToNat fp : Rat) / ((10 : Rat) ^ fp.length))
  else
    .int (digitsToNat text)

/-- The keys of `Evaluator.SYMBOL_TABLE` after the registration calls at the
bottom of dice.py (lines 1258-1328). -/
def SYMBOL_KEYS : List String :=
  ["NUMBER", "END", "(", ")", ",", "repeat", "sqrt", "fact", "agg",
   "=", ">", "<", ">=", "<=", "~=",
   "+", "-", "*", "×", "/", "÷", "%", "^",
   "C", "choose",
   "?=", "?>", "?<", "?>=", "?<=", "?~=",
   "h", "l", "k", "p", "d"]

/-- A symbol instance produced by `symbolize`: the symbol-table id and, for
numbers, the literal value. -/
structure Sym where
  id : String
  value : Option PyNum
deriving Repr, DecidableEq

/-- `symbolize` (dice.py lines 58-103): map tokens to symbol instances and
split them into individual rolls at `END` tokens; `MISMATCH` raises
`RuntimeError`, an unregistered symbol id raises `SyntaxError`. -/
def symbolize (intext : String) : Except String (List (List Sym)) := do
  let step : List (List Sym) × List Sym → RawToken →
      Except String (List (List Sym) × List Sym) := fun acc tok => do
    let all_rolls := acc.1
    let current_roll := acc.2
    match tok.kind with
    | .SKIP => .ok (all_rolls, current_roll)
    | .MISMATCH =>
        .error s!"Couldn't interpret <{String.mk tok.text}> from: {intext}"
    | _ =>
        let symbol_id :=
          match tok.kind with
          | .OP | .DICE | .KEYWORD | .SEP | .COMP | .SETOP | .SETSEL =>
              String.mk tok.text
          | .NUMBER => "NUMBER"
          | .DIETYPE => "DIETYPE"
          | .END => "END"
          | _ => "?"
        if SYMBOL_KEYS.contains symbol_id then
          let value := if tok.kind = .NUMBER then some (numberValue tok.text) else none
          let current_roll := current_roll ++ [Sym.mk symbol_id value]
          if tok.kind = .END then
            .ok (all_rolls ++ [current_roll], [])
          else
            .ok (all_rolls, current_roll)
        else
          .error s!"Failed to find symbol type for {symbol_id}"
  let folded ← (lex intext).foldlM step ([], [])
  let all_rolls := folded.1
  let current_roll := folded.2
  if current_roll.length > 0 then
    if (current_roll.getLast?.map (·.id)) ≠ some "END" then
      .ok (all_rolls ++ [current_roll ++ [Sym.mk "END" none]])
    else
      .ok (all_rolls ++ [current_roll])
  else
    .ok all_rolls

/-! ### Embedding of `FlatExpr`, the old `MultiExpr` and `_repeat_function`
from `src/py/src/dice.py`. -/

/-- `FlatExpr` (dice.py lines 287-306): a frozen single-value result. -/
structure FlatExpr where
  value : Option Int
  description : String
  subrepr : String
deriving Repr, DecidableEq

/-- `MultiExpr` (dice.py lines 604-645), a `CollectedValues`: items plus lists
of dropped/added indices. -/
structure MultiExpr where
  items : List FlatExpr
  dropped : List Nat
  added : List Nat
deriving Repr, DecidableEq

/-- `MultiExpr(contents=...)` construction. -/
def mkMultiExpr (contents : List FlatExpr) : MultiExpr :=
  { items := contents, dropped := [], added := [] }

/-- `CollectedValues.get_remaining` (dice.py lines 584-590). -/
def MultiExpr.get_remaining (m : MultiExpr) : List FlatExpr :=
  ((m.items.enum).filter (fun p => !m.dropped.contains p.1)).map (·.2)

/-- `CollectedValues.get_remaining_count` (dice.py line 593):
`len(items) - len(dropped)`. -/
def MultiExpr.get_remaining_count (m : MultiExpr) : Int :=
  (m.items.length : Int) - m.dropped.length

/-- `MultiExpr.get_value` (dice.py lines 627-630): the single remaining item's
value when exactly one remains, else `None`. -/
def MultiExpr.get_value (m : MultiExpr) : Option Int :=
  if m.get_remaining_count = 1 then
    match m.get_remaining.head? with
    | some f => f.value
    | none => none
  else
    none

/-- `_repeat_function` (dice.py lines 1154-1177): the first evaluation of the
repeated expression is `first`; each further repetition replays the
sub-expression, modelled by the oracle `redo` giving the `FlatExpr` recorded
for repetition `i`. -/
def _repeat_function (first : FlatExpr) (y : PyNum) (redo : Nat → FlatExpr) :
    Except String MultiExpr :=
  match force_integral y "repetitions" with
  | .error m => .error m
  | .ok reps =>
      if reps < 0 then .error "Cannot repeat negative times"
      else if reps = 0 then .ok (mkMultiExpr [])
      else .ok (mkMultiExpr (first :: (List.range (reps - 1).toNat).map redo))

end Dice

/-! ## Lemmas and claim theorems -/

/-- `force_integral` raises exactly on non-integral inputs. -/
theorem force_integral_error_iff (v : PyNum) (d : String) :
    (∃ m, force_integral v d = .error m) ↔ v.isIntegral = false := by
  cases v with
  | int n => simp [force_integral, PyNum.isIntegral]
  | float q =>
      by_cases h : q.den = 1 <;>
        simp [force_integral, PyNum.isIntegral, h]

/-- A successful `force_integral` returns the numeric value of an integral
input. -/
theorem force_integral_ok_val (v : PyNum) (d : String) (n : Int)
    (h : force_integral v d = .ok n) : v.isIntegral = true ∧ v.toRat = (n : Rat) := by
  cases v with
  | int m =>
      simp only [force_integral, Except.ok.injEq] at h
      simp [PyNum.isIntegral, PyNum.toRat, h]
  | float q =>
      by_cases hq : q.den = 1
      · simp only [force_integral, hq, if_true, Except.ok.injEq] at h
        refine ⟨by simp [PyNum.isIntegral, hq], ?_⟩
        rw [PyNum.toRat, ← h]
        exact_mod_cast (Rat.den_eq_one_iff q).mp hq |>.symm
      · simp [force_integral, hq] at h

namespace DiceDetails

/-- Left fold of `+` equals the initial value plus the list sum
(`functools.reduce(operator.add, ...)`). -/
theorem foldl_add_eq (v : Int) (vs : List Int) : vs.foldl (· + ·) v = v + vs.sum := by
  induction vs generalizing v with
  | nil => simp
  | cons x xs ih => simp only [List.foldl_cons, ih, List.sum_cons]; ring

/-- `total` is the sum of the remaining (non-dropped) items. -/
theorem total_eq_sum (es : List SetElement) : total es = (get_remaining es).sum := by
  unfold total totalWith
  cases h : get_remaining es with
  | nil => simp
  | cons v vs => simp [foldl_add_eq]

/-- The modelled `randint 1 s` lies in `[1, s]` for positive `s`. -/
theorem randint_bounds (s : Int) (hs : 0 < s) (r : Nat) :
    1 ≤ randint 1 s r ∧ randint 1 s r ≤ s := by
  unfold randint
  have hmod : s - 1 + 1 = s := by ring
  rw [hmod]
  have h1 : 0 ≤ (r : Int) % s := Int.emod_nonneg _ (ne_of_gt hs)
  have h2 : (r : Int) % s < s := Int.emod_lt_of_pos _ hs
  omega

/-- `single_roll` yields `0` on a `d0` and otherwise a value in `[1, size]`. -/
theorem single_roll_bounds (s : Int) (g : Nat → Nat) (pos : Nat) :
    (s = 0 → (single_roll s g pos).1 = 0) ∧
    (0 < s → 1 ≤ (single_roll s g pos).1 ∧ (single_roll s g pos).1 ≤ s) := by
  constructor
  · intro h; simp [single_roll, h]
  · intro h
    have hne : s ≠ 0 := ne_of_gt h
    simpa [single_roll, hne] using randint_bounds s h (g pos)

/-- `single_roll` is non-negative for non-negative sizes. -/
theorem single_roll_nonneg (s : Int) (hs : 0 ≤ s) (g : Nat → Nat) (pos : Nat) :
    0 ≤ (single_roll s g pos).1 := by
  rcases lt_or_eq_of_le hs with h | h
  · have := (single_roll_bounds s g pos).2 h
    omega
  · simp [(single_roll_bounds s g pos).1 h.symm]

/-- `roll_list` produces exactly `count` rolls. -/
theorem roll_list_length (c : Nat) (s : Int) (g : Nat → Nat) (pos : Nat) :
    (roll_list c s g pos).1.length = c := by
  induction c generalizing pos with
  | zero => simp [roll_list]
  | succ n ih => simp [roll_list, ih]

/-- Every entry of `roll_list` is a `single_roll` outcome. -/
theorem roll_list_mem (c : Nat) (s : Int) (g : Nat → Nat) (pos : Nat) (v : Int)
    (hv : v ∈ (roll_list c s g pos).1) : ∃ p, v = (single_roll s g p).1 := by
  induction c generalizing pos with
  | zero => simp [roll_list] at hv
  | succ n ih =>
      simp only [roll_list, List.mem_cons] at hv
      rcases hv with h | h
      · exact ⟨pos, h⟩
      · exact ih _ h

/-- The claim C1 bundle about the elements freshly built from rolled items. -/
theorem mkDiceValues_elements (s : Int) (items : List Int) :
    (mkDiceValues s items).elements = items.map
      (fun i => { item := i, dropped := false, added := false }) := rfl

/-- C1: for all non-negative integers `count` and `size`, `dice_roll` succeeds
and returns a `DiceValues` with exactly `count` elements, none dropped or
added, each equal to `0` when `size = 0` and otherwise in `[1, size]`, and
whose stored total equals the sum of its non-dropped items. -/
theorem C1_dice_roll_spec (count size : Nat) (g : Nat → Nat) (pos : Nat) :
    ∃ dv pos', dice_roll (.int count) (.int size) g pos = (.ok dv, pos') ∧
      dv.elements.length = count ∧
      (∀ e ∈ dv.elements, e.dropped = false ∧ e.added = false) ∧
      (∀ e ∈ dv.elements,
        (size = 0 → e.item = 0) ∧ (size ≠ 0 → 1 ≤ e.item ∧ e.item ≤ (size : Int))) ∧
      dv.resultValue = total dv.elements ∧
      total dv.elements = (get_remaining dv.elements).sum := by
  have hsz : ¬ (PyNum.toRat (.int (size : Int)) < 0) := by
    simp only [PyNum.toRat, not_lt]
    positivity
  have hcnt : ¬ ((count : Int) < 0) := by omega
  refine ⟨mkDiceValues (size : Int) (roll_list count (size : Int) g pos).1,
          (roll_list count (size : Int) g pos).2, ?_, ?_, ?_, ?_, rfl,
          total_eq_sum _⟩
  · simp only [dice_roll, force_integral, hsz, if_false, hcnt, Int.toNat_natCast]
  · simp [mkDiceValues_elements, roll_list_length]
  · intro e he
    rw [mkDiceValues_elements] at he
    simp only [List.mem_map] at he
    obtain ⟨v, _, rfl⟩ := he
    exact ⟨rfl, rfl⟩
  · intro e he
    rw [mkDiceValues_elements] at he
    simp only [List.mem_map] at he
    obtain ⟨v, hv, rfl⟩ := he
    obtain ⟨p, rfl⟩ := roll_list_mem _ _ _ _ _ hv
    constructor
    · intro h
      exact (single_roll_bounds _ g p).1 (by exact_mod_cast congrArg Nat.cast h)
    · intro h
      have hpos : 0 < (size : Int) := by
        have : size ≠ 0 := h
        omega
      exact (single_roll_bounds _ g p).2 hpos

/-- C8: `dice_roll` raises a `ValueError` exactly when the count or the size
is negative or non-integral; when it raises, the entropy position is returned
unchanged and the outcome is independent of the entropy stream (no randomness
is consumed and no dice are produced). -/
theorem C8_dice_roll_raises_iff (count size : PyNum) (g : Nat → Nat) (pos : Nat) :
    ((∃ m, (dice_roll count size g pos).1 = .error m) ↔
      (count.toRat < 0 ∨ size.toRat < 0 ∨
       count.isIntegral = false ∨ size.isIntegral = false))
  ∧ (∀ m, (dice_roll count size g pos).1 = .error m →
      (dice_roll count size g pos).2 = pos ∧
      ∀ g' pos₀, (dice_roll count size g' pos₀).1 = .error m ∧
        (dice_roll count size g' pos₀).2 = pos₀) := by
  cases hc : force_integral count "dice count" with
  | error m =>
      have hint : count.isIntegral = false :=
        (force_integral_error_iff count "dice count").mp ⟨m, hc⟩
      have heq : ∀ (g' : Nat → Nat) pos₀,
          dice_roll count size g' pos₀ = (.error m, pos₀) := fun g' pos₀ => by
        simp [dice_roll, hc]
      constructor
      · simp [heq, hint]
      · intro m' hm'
        rw [heq] at hm'
        injection hm' with h
        subst h
        exact ⟨by rw [heq], fun g' pos₀ => by rw [heq]; exact ⟨rfl, rfl⟩⟩
  | ok c =>
      obtain ⟨hcint, hcval⟩ := force_integral_ok_val count "dice count" c hc
      by_cases hs0 : size.toRat < 0
      · have heq : ∀ (g' : Nat → Nat) pos₀,
            dice_roll count size g' pos₀ =
              (.error s!"Negative dice don't exist (d{0})", pos₀) := fun g' pos₀ => by
          simp [dice_roll, hc, hs0]
        constructor
        · simp [heq, hs0]
        · intro m' hm'
          rw [heq] at hm'
          injection hm' with h
          subst h
          exact ⟨by rw [heq], fun g' pos₀ => by rw [heq]; exact ⟨rfl, rfl⟩⟩
      · cases hfs : force_integral size "dice size" with
        | error ms =>
            have hsint : size.isIntegral = false :=
              (force_integral_error_iff size "dice size").mp ⟨ms, hfs⟩
            have heq : ∀ (g' : Nat → Nat) pos₀,
                dice_roll count size g' pos₀ = (.error ms, pos₀) := fun g' pos₀ => by
              simp [dice_roll, hc, hs0, hfs]
            constructor
            · simp [heq, hsint]
            · intro m' hm'
              rw [heq] at hm'
              injection hm' with h
              subst h
              exact ⟨by rw [heq], fun g' pos₀ => by rw [heq]; exact ⟨rfl, rfl⟩⟩
        | ok s =>
            obtain ⟨hsint, hsval⟩ := force_integral_ok_val size "dice size" s hfs
            by_cases hcneg : c < 0
            · have hcrat : count.toRat < 0 := by
                rw [hcval]; exact_mod_cast hcneg
              have heq : ∀ (g' : Nat → Nat) pos₀,
                  dice_roll count size g' pos₀ =
                    (.error s!"Can't roll a negative number of dice ({c})", pos₀) :=
                fun g' pos₀ => by simp [dice_roll, hc, hs0, hfs, hcneg]
              constructor
              · simp [heq, hcrat]
              · intro m' hm'
                rw [heq] at hm'
                injection hm' with h
                subst h
                exact ⟨by rw [heq], fun g' pos₀ => by rw [heq]; exact ⟨rfl, rfl⟩⟩
            · have hcrat : ¬ count.toRat < 0 := by
                rw [hcval]
                intro hcon
                exact hcneg (by exact_mod_cast hcon)
              constructor
              · constructor
                · rintro ⟨m', hm'⟩
                  simp [dice_roll, hc, hs0, hfs, hcneg] at hm'
                · rintro (h | h | h | h)
                  · exact absurd h hcrat
                  · exact absurd h hs0
                  · rw [hcint] at h; cases h
                  · rw [hsint] at h; cases h
              · intro m' hm'
                simp [dice_roll, hc, hs0, hfs, hcneg] at hm'


/-- Witness for C8 at a concrete non-integral count. -/
theorem C8_dice_roll_raises_iff_witness :
    (dice_roll (.float (5 / 2)) (.int 6) (fun _ => 0) 0).2 = 0 ∧
    (dice_roll (.float (5 / 2)) (.int 6) (fun _ => 1) 7).1 =
      .error "Expected integer # dice count: float" :=
  ⟨((C8_dice_roll_raises_iff (.float (5 / 2)) (.int 6) (fun _ => 0) 0).2
      "Expected integer # dice count: float" (by
        have hden : ((5 / 2 : Rat)).den = 2 := by norm_num
        simp only [dice_roll, force_integral, hden]
        norm_num
        rfl)).1,
   (((C8_dice_roll_raises_iff (.float (5 / 2)) (.int 6) (fun _ => 0) 0).2
      "Expected integer # dice count: float" (by
        have hden : ((5 / 2 : Rat)).den = 2 := by norm_num
        simp only [dice_roll, force_integral, hden]
        norm_num
        rfl)).2 (fun _ => 1) 7).1⟩

/-- `mkMultiExpr` does not change the element list. -/
theorem mkMultiExpr_elements (es : List SetElement) : (mkMultiExpr es).elements = es := by
  unfold mkMultiExpr
  split <;> rfl

/-- `mkSuccessValues` does not change the element list. -/
theorem mkSuccessValues_elements (es : List SetElement) :
    (mkSuccessValues es).elements = es := by
  unfold mkSuccessValues
  rw [mkMultiExpr_elements]

/-- C6: the value of `countPass` (`set_op_count`, non-inverted) plus the value
of `countFail` (`set_op_count`, inverted, same matched indices) equals the
set's remaining (non-dropped) element count. -/
theorem C6_count_pass_fail (s : SetResult) (sel : SetSelector) (selected : List Nat)
    (_h : sel.apply s.elements = .ok selected) :
    ∃ p f, (set_op_count s selected false).resultValue = some p ∧
      (set_op_count s selected true).resultValue = some f ∧
      p + f = (get_remaining_count s.elements : Int) := by
  refine ⟨(selected.length : Int),
          (get_remaining_count s.elements : Int) - selected.length, ?_, ?_, by ring⟩
  · simp [set_op_count]
  · simp [set_op_count, mkSuccessValues_elements]

/-- Witness for C6 on a concrete set and selector. -/
theorem C6_count_pass_fail_witness :
    ∃ p f, (set_op_count
        { elements := [{ item := 2, dropped := false, added := false },
                       { item := 5, dropped := false, added := false },
                       { item := 1, dropped := true, added := false }]
          , resultValue := none } [1] false).resultValue = some p ∧
      (set_op_count
        { elements := [{ item := 2, dropped := false, added := false },
                       { item := 5, dropped := false, added := false },
                       { item := 1, dropped := true, added := false }]
          , resultValue := none } [1] true).resultValue = some f ∧
      p + f = ((2 : Nat) : Int) :=
  C6_count_pass_fail
    { elements := [{ item := 2, dropped := false, added := false },
                   { item := 5, dropped := false, added := false },
                   { item := 1, dropped := true, added := false }]
      , resultValue := none }
    (.cond (fun x => 3 ≤ x)) [1] (by rfl)

/-- Membership in `get_remaining_enumerated`: the index is in range, points at
a non-dropped element, and carries that element's item. -/
theorem mem_gre (es : List SetElement) (p : Nat × Int)
    (hp : p ∈ get_remaining_enumerated es) :
    p.1 < es.length ∧ (es.getD p.1 elem0).dropped = false ∧
      (es.getD p.1 elem0).item = p.2 := by
  unfold get_remaining_enumerated at hp
  simp only [List.mem_map, List.mem_filter] at hp
  obtain ⟨q, ⟨hq_mem, hq_drop⟩, hpq⟩ := hp
  subst hpq
  have hget : es[q.1]? = some q.2 := List.mem_enum_iff_getElem?.mp hq_mem
  have hlt : q.1 < es.length := by
    by_contra hcon
    rw [List.getElem?_eq_none (le_of_not_lt hcon)] at hget
    cases hget
  have hgetD : es.getD q.1 elem0 = q.2 := by
    rw [List.getD_eq_getElem?_getD, hget]
    rfl
  refine ⟨hlt, ?_, by rw [hgetD]⟩
  rw [hgetD]
  simpa using hq_drop

/-- The indices listed by `get_remaining_enumerated` are distinct. -/
theorem gre_fst_nodup (es : List SetElement) :
    ((get_remaining_enumerated es).map (·.1)).Nodup := by
  unfold get_remaining_enumerated
  rw [List.map_map]
  have hc : ((fun p : Nat × Int => p.1) ∘ (fun p : Nat × SetElement => (p.1, p.2.item)))
      = fun p : Nat × SetElement => p.1 := rfl
  rw [hc]
  exact ((es.enum.filter_sublist.map _)).nodup (List.nodup_enum_map_fst es)

/-- Inserting into a sorted accumulator is a permutation of consing. -/
theorem insSorted_perm (lt : α → α → Bool) (x : α) (l : List α) :
    List.Perm (insSorted lt x l) (x :: l) := by
  induction l with
  | nil => rfl
  | cons y ys ih =>
      unfold insSorted
      split
      · rfl
      · exact (List.Perm.cons y ih).trans (List.Perm.swap x y ys)

/-- The insertion-sort fold is a permutation of the input plus accumulator. -/
theorem insSort_aux_perm (lt : α → α → Bool) (l acc : List α) :
    List.Perm (l.foldl (fun a x => insSorted lt x a) acc) (l ++ acc) := by
  induction l generalizing acc with
  | nil => simp
  | cons x xs ih =>
      have h1 : (x :: xs).foldl (fun a x => insSorted lt x a) acc
          = xs.foldl (fun a x => insSorted lt x a) (insSorted lt x acc) := rfl
      rw [h1]
      refine ((ih _).trans ?_)
      refine (List.Perm.append_left xs (insSorted_perm lt x acc)).trans ?_
      exact List.perm_middle

/-- The modelled stable sort is a permutation of its input. -/
theorem insSort_perm (lt : α → α → Bool) (l : List α) : List.Perm (insSort lt l) l := by
  simpa using insSort_aux_perm lt l []

/-- Shared safety property of every selector's `apply`: on success it returns
only in-range indices of non-dropped elements, without duplicates. -/
theorem selector_apply_props (sel : SetSelector) (es : List SetElement)
    (idxs : List Nat) (h : sel.apply es = .ok idxs) :
    (∀ i ∈ idxs, i < es.length ∧ (es.getD i elem0).dropped = false) ∧ idxs.Nodup := by
  cases sel with
  | cond c =>
      simp only [SetSelector.apply, Except.ok.injEq] at h
      subst h
      constructor
      · intro i hi
        unfold _select_conditional at hi
        simp only [List.mem_map, List.mem_filter] at hi
        obtain ⟨p, ⟨hp, _⟩, rfl⟩ := hi
        exact ⟨(mem_gre es p hp).1, (mem_gre es p hp).2.1⟩
      · unfold _select_conditional
        have hsub : List.Sublist
            (((get_remaining_enumerated es).filter (fun p => c p.2)).map (·.1))
            ((get_remaining_enumerated es).map (·.1)) :=
          (List.filter_sublist _).map _
        exact hsub.nodup (gre_fst_nodup es)
  | lowHigh num high =>
      simp only [SetSelector.apply, _select_low_high] at h
      cases hfi : force_integral num "items to drop" with
      | error m => rw [hfi] at h; cases h
      | ok n =>
          rw [hfi] at h
          simp only [Except.bind, bind, pure] at h
          by_cases hneg : n < 0
          · simp [hneg] at h
          · by_cases hzero : n = 0
            · subst hzero
              norm_num at h
              subst h
              exact ⟨fun i hi => absurd hi (List.not_mem_nil i), List.nodup_nil⟩
            · simp only [hneg, if_false, hzero, Except.ok.injEq] at h
              subst h
              have hperm : List.Perm
                  (sortPairsByItem (get_remaining_enumerated es) high)
                  (get_remaining_enumerated es) := insSort_perm _ _
              constructor
              · intro i hi
                simp only [List.mem_map] at hi
                obtain ⟨p, hp, rfl⟩ := hi
                have hp2 : p ∈ sortPairsByItem (get_remaining_enumerated es) high :=
                  (List.take_sublist _ _).mem hp
                have hp3 : p ∈ get_remaining_enumerated es := hperm.mem_iff.mp hp2
                exact ⟨(mem_gre es p hp3).1, (mem_gre es p hp3).2.1⟩
              · have hnd : ((sortPairsByItem (get_remaining_enumerated es) high).map
                    (·.1)).Nodup :=
                  (hperm.map _).nodup_iff.mpr (gre_fst_nodup es)
                exact (((List.take_sublist _ _).map _).nodup) hnd

/-- C10: every selector's `apply` (`ConditionalSelector`, including
`EvenOddSelector`, and `LowHighSelector`) returns only in-range indices of
non-dropped elements of the set, with no duplicates; an already-dropped
element is never matched. -/
theorem C10_selector_apply_safe (sel : SetSelector) (es : List SetElement)
    (idxs : List Nat) (h : sel.apply es = .ok idxs) :
    (∀ i ∈ idxs, i < es.length ∧ (es.getD i elem0).dropped = false) ∧ idxs.Nodup :=
  selector_apply_props sel es idxs h

/-- Witness for C10 on a concrete set and a low/high selector. -/
theorem C10_selector_apply_safe_witness :
    (∀ i ∈ [2], i < ([⟨4, false, false⟩, ⟨9, true, false⟩,
                      ⟨7, false, false⟩] : List SetElement).length ∧
      (([⟨4, false, false⟩, ⟨9, true, false⟩,
         ⟨7, false, false⟩] : List SetElement).getD i elem0).dropped = false)
    ∧ List.Nodup [2] :=
  C10_selector_apply_safe (.lowHigh (.int 1) true)
    ([⟨4, false, false⟩, ⟨9, true, false⟩, ⟨7, false, false⟩] : List SetElement)
    [2] (by rfl)

/-- One drop step preserves the list length. -/
theorem length_drop_index_step (es : List SetElement) (i : Nat) :
    (drop_index_step es i).length = es.length := by
  unfold drop_index_step
  cases h : es.get? i with
  | none => rfl
  | some e => simp

/-- `drop_indices` preserves the list length. -/
theorem length_drop_indices (es : List SetElement) (idxs : List Nat) :
    (drop_indices es idxs).length = es.length := by
  induction idxs generalizing es with
  | nil => rfl
  | cons i rest ih =>
      show (drop_indices (drop_index_step es i) rest).length = es.length
      rw [ih, length_drop_index_step]

/-- A drop step leaves other positions untouched. -/
theorem getD_drop_index_step_ne (es : List SetElement) (i j : Nat) (hne : j ≠ i) :
    (drop_index_step es i).getD j elem0 = es.getD j elem0 := by
  unfold drop_index_step
  cases h : es.get? i with
  | none => rfl
  | some e =>
      rw [List.getD_eq_getElem?_getD, List.getD_eq_getElem?_getD,
          List.getElem?_set_ne (Ne.symm hne)]

/-- A drop step at an in-range position marks it dropped, keeping item and
`added`. -/
theorem getD_drop_index_step_eq (es : List SetElement) (i : Nat)
    (hlt : i < es.length) :
    (drop_index_step es i).getD i elem0 =
      { item := (es.getD i elem0).item, dropped := true,
        added := (es.getD i elem0).added } := by
  unfold drop_index_step
  cases h : es.get? i with
  | none =>
      rw [List.get?_eq_getElem?] at h
      rw [List.getElem?_eq_none_iff] at h
      omega
  | some e =>
      have he : es.getD i elem0 = e := by
        rw [List.getD_eq_getElem?_getD, ← List.get?_eq_getElem?, h]
        rfl
      rw [List.getD_eq_getElem?_getD, List.getElem?_set_eq_of_lt _ (by simpa using hlt)]
      rw [he]
      rfl

/-- An out-of-range drop step is a no-op. -/
theorem drop_index_step_oob (es : List SetElement) (i : Nat)
    (hge : es.length ≤ i) : drop_index_step es i = es := by
  unfold drop_index_step
  cases h : es.get? i with
  | none => rfl
  | some e =>
      rw [List.get?_eq_getElem?, List.getElem?_eq_some] at h
      rcases h with ⟨hlt, _⟩
      omega

/-- Characterization of `drop_indices`: a position is replaced by its dropped
version exactly when its index is listed and in range. -/
theorem getD_drop_indices (es : List SetElement) (idxs : List Nat) (j : Nat) :
    (drop_indices es idxs).getD j elem0 =
      if j ∈ idxs ∧ j < es.length then
        { item := (es.getD j elem0).item, dropped := true,
          added := (es.getD j elem0).added }
      else es.getD j elem0 := by
  induction idxs generalizing es with
  | nil => simp [drop_indices]
  | cons i rest ih =>
      have hstep : drop_indices es (i :: rest) = drop_indices (drop_index_step es i) rest := rfl
      rw [hstep, ih, length_drop_index_step]
      by_cases hji : j = i
      · subst hji
        by_cases hlt : j < es.length
        · rw [getD_drop_index_step_eq es j hlt]
          by_cases hjr : j ∈ rest <;>
            simp [hjr, hlt, List.mem_cons]
        · rw [drop_index_step_oob es j (by omega)]
          simp [hlt]
      · rw [getD_drop_index_step_ne es i j hji]
        by_cases hjr : j ∈ rest
        · simp [hjr, hji, List.mem_cons]
        · have hni : ¬ j ∈ i :: rest := by
            simp [List.mem_cons, hji, hjr]
          simp [hjr, hni]

/-- `drop_indices` never un-drops an element. -/
theorem drop_indices_mono (es : List SetElement) (idxs : List Nat) (j : Nat)
    (h : (es.getD j elem0).dropped = true) :
    ((drop_indices es idxs).getD j elem0).dropped = true := by
  rw [getD_drop_indices]
  split
  · rfl
  · exact h

/-- Membership in `dropped_indices` means an in-range dropped position. -/
theorem mem_dropped_indices (es : List SetElement) (i : Nat) :
    i ∈ dropped_indices es ↔ i < es.length ∧ (es.getD i elem0).dropped = true := by
  unfold dropped_indices
  simp only [List.mem_map, List.mem_filter]
  constructor
  · rintro ⟨q, ⟨hq_mem, hq_drop⟩, rfl⟩
    have hget : es[q.1]? = some q.2 := List.mem_enum_iff_getElem?.mp hq_mem
    have hlt : q.1 < es.length := by
      by_contra hcon
      rw [List.getElem?_eq_none (le_of_not_lt hcon)] at hget
      cases hget
    have hgetD : es.getD q.1 elem0 = q.2 := by
      rw [List.getD_eq_getElem?_getD, hget]
      rfl
    exact ⟨hlt, by rw [hgetD]; exact hq_drop⟩
  · rintro ⟨hlt, hdrop⟩
    cases hget : es[i]? with
    | none =>
        rw [List.getElem?_eq_none_iff] at hget
        omega
    | some e =>
        refine ⟨(i, e), ⟨List.mem_enum_iff_getElem?.mpr hget, ?_⟩, rfl⟩
        have hgetD : es.getD i elem0 = e := by
          rw [List.getD_eq_getElem?_getD, hget]
          rfl
        rw [hgetD] at hdrop
        exact hdrop

/-- Membership in `invert_selection`: in range and not selected. -/
theorem mem_invert_selection (n : Nat) (sel : List Nat) (i : Nat) :
    i ∈ invert_selection n sel ↔ i < n ∧ ¬ i ∈ sel := by
  simp [invert_selection, List.mem_filter, List.mem_range]

/-- The elements produced by `set_op_keep` are the input's with the computed
drop applied. -/
theorem set_op_keep_elements (s : SetResult) (selected : List Nat) (invert : Bool) :
    (set_op_keep s selected invert).elements =
      drop_indices s.elements
        (if invert then selected
         else invert_selection s.elements.length selected) := by
  cases invert <;> rfl

/-- C5 (amended): for every set and every high-N selection, the dropped-index
sets of `keep` and `drop` cover the full index range, and their intersection
is exactly the set of indices that were already dropped in the input (in
particular it is empty when the input has no dropped elements). -/
theorem C5_keep_drop_complementary (s : SetResult) (num : PyNum)
    (selected : List Nat)
    (_h : (SetSelector.lowHigh num true).apply s.elements = .ok selected) :
    (dropped_indices (set_op_keep s selected false).elements).toFinset ∪
      (dropped_indices (set_op_keep s selected true).elements).toFinset
      = Finset.range s.elements.length ∧
    (dropped_indices (set_op_keep s selected false).elements).toFinset ∩
      (dropped_indices (set_op_keep s selected true).elements).toFinset
      = (dropped_indices s.elements).toFinset := by
  have hK : (set_op_keep s selected false).elements =
      drop_indices s.elements (invert_selection s.elements.length selected) := rfl
  have hD : (set_op_keep s selected true).elements =
      drop_indices s.elements selected := rfl
  have hgen : ∀ (td : List Nat) (i : Nat),
      i ∈ dropped_indices (drop_indices s.elements td) ↔
        i < s.elements.length ∧
          (i ∈ td ∨ (s.elements.getD i elem0).dropped = true) := by
    intro td i
    rw [mem_dropped_indices, length_drop_indices, getD_drop_indices]
    constructor
    · rintro ⟨hlt, hdrop⟩
      refine ⟨hlt, ?_⟩
      by_cases hin : i ∈ td
      · exact Or.inl hin
      · rw [if_neg (fun hcon => hin hcon.1)] at hdrop
        exact Or.inr hdrop
    · rintro ⟨hlt, hcase⟩
      refine ⟨hlt, ?_⟩
      split
      · rfl
      · rename_i hcon
        rcases hcase with hin | hdrop
        · exact absurd ⟨hin, hlt⟩ hcon
        · exact hdrop
  constructor
  · ext i
    simp only [Finset.mem_union, List.mem_toFinset, Finset.mem_range, hK, hD,
               hgen, mem_invert_selection]
    constructor
    · rintro (⟨hlt, _⟩ | ⟨hlt, _⟩) <;> exact hlt
    · intro hlt
      by_cases hin : i ∈ selected
      · exact Or.inr ⟨hlt, Or.inl hin⟩
      · exact Or.inl ⟨hlt, Or.inl ⟨hlt, hin⟩⟩
  · ext i
    simp only [Finset.mem_inter, List.mem_toFinset, hK, hD,
               hgen, mem_invert_selection, mem_dropped_indices]
    constructor
    · rintro ⟨⟨hlt, hk⟩, ⟨_, hd⟩⟩
      refine ⟨hlt, ?_⟩
      rcases hk with ⟨_, hnotsel⟩ | hpre
      · rcases hd with hsel | hpre
        · exact absurd hsel hnotsel
        · exact hpre
      · exact hpre
    · rintro ⟨hlt, hpre⟩
      exact ⟨⟨hlt, Or.inr hpre⟩, ⟨hlt, Or.inr hpre⟩⟩

/-- Counterexample to C5 as stated: with an input set that already has a
dropped element, the dropped-index sets of `keep` and `drop` are not
disjoint. -/
theorem C5_keep_drop_counterexample :
    (SetSelector.lowHigh (.int 1) true).apply
        ([⟨1, true, false⟩, ⟨2, false, false⟩] : List SetElement) = .ok [1] ∧
    ¬ ((dropped_indices (set_op_keep
          ⟨[⟨1, true, false⟩, ⟨2, false, false⟩], none⟩ [1] false).elements).toFinset ∩
       (dropped_indices (set_op_keep
          ⟨[⟨1, true, false⟩, ⟨2, false, false⟩], none⟩ [1] true).elements).toFinset
       = ∅) :=
  ⟨by rfl, by decide⟩

/-- Out-of-range positions read as the (non-dropped) placeholder. -/
theorem getD_oob (es : List SetElement) (i : Nat) (h : es.length ≤ i) :
    es.getD i elem0 = elem0 := by
  rw [List.getD_eq_getElem?_getD, List.getElem?_eq_none h]
  rfl

/-- `append_items` preserves the original positions. -/
theorem getD_append_items_lt (es : List SetElement) (vs : List Int) (i : Nat)
    (h : i < es.length) : (append_items es vs).getD i elem0 = es.getD i elem0 := by
  unfold append_items
  rw [List.getD_eq_getElem?_getD, List.getD_eq_getElem?_getD,
      List.getElem?_append, if_pos h]

/-- The element list produced by one `_dice_reroll_append` call. -/
theorem dra_elements (dice : DiceValues) (sr : List Nat) (rb : RBDict)
    (g : Nat → Nat) (pos : Nat) :
    ((_dice_reroll_append dice sr rb g pos).1).elements =
      append_items (drop_indices dice.elements sr)
        (rr_append_loop dice.dice_size g sr rb (get_all_count dice.elements) pos).2.1 :=
  rfl

/-- After `_dice_reroll_append`, every index that triggered the reroll is
dropped. -/
theorem dra_dropped_of_mem (dice : DiceValues) (sr : List Nat) (rb : RBDict)
    (g : Nat → Nat) (pos : Nat) (i : Nat) (hmem : i ∈ sr)
    (hlt : i < dice.elements.length) :
    droppedAt ((_dice_reroll_append dice sr rb g pos).1).elements i = true := by
  rw [droppedAt, dra_elements, getD_append_items_lt _ _ _
        (by rw [length_drop_indices]; exact hlt),
      getD_drop_indices, if_pos ⟨hmem, hlt⟩]

/-- `_dice_reroll_append` never un-drops an element. -/
theorem dra_dropped_mono (dice : DiceValues) (sr : List Nat) (rb : RBDict)
    (g : Nat → Nat) (pos : Nat) (i : Nat)
    (h : droppedAt dice.elements i = true) :
    droppedAt ((_dice_reroll_append dice sr rb g pos).1).elements i = true := by
  by_cases hlt : i < dice.elements.length
  · rw [droppedAt, dra_elements, getD_append_items_lt _ _ _
        (by rw [length_drop_indices]; exact hlt)]
    exact drop_indices_mono _ _ _ h
  · rw [droppedAt, getD_oob _ _ (le_of_not_lt hlt)] at h
    cases h

/-- Trace properties of the reroll loop: at most `fuel` rounds, no index
triggers twice, and an index dropped at loop entry never triggers. -/
theorem reroll_loop_trace_props (sel : SetSelector) (g : Nat → Nat) :
    ∀ (fuel : Nat) (temp : DiceValues) (rb : RBDict) (pos : Nat)
      (t : DiceValues) (r : RBDict) (p : Nat) (tr : List (List Nat)),
      reroll_loop sel temp rb fuel g pos = .ok (t, r, p, tr) →
      tr.length ≤ fuel ∧ tr.flatten.Nodup ∧
        (∀ i, droppedAt temp.elements i = true → i ∉ tr.flatten) := by
  intro fuel
  induction fuel with
  | zero =>
      intro temp rb pos t r p tr h
      simp only [reroll_loop, Except.ok.injEq, Prod.mk.injEq] at h
      obtain ⟨-, -, -, h4⟩ := h
      subst h4
      exact ⟨le_refl _, by simp, by simp⟩
  | succ fuel ih =>
      intro temp rb pos t r p tr h
      simp only [reroll_loop] at h
      cases happly : sel.apply temp.elements with
      | error m =>
          rw [happly] at h
          simp at h
      | ok sr =>
          simp only [happly] at h
          by_cases hempty : sr.isEmpty
          · rw [if_pos hempty] at h
            simp only [Except.ok.injEq, Prod.mk.injEq] at h
            obtain ⟨-, -, -, h4⟩ := h
            subst h4
            exact ⟨Nat.zero_le _, by simp, by simp⟩
          · rw [if_neg hempty] at h
            cases hrec : reroll_loop sel
                (_dice_reroll_append temp sr rb g pos).1
                (_dice_reroll_append temp sr rb g pos).2.1 fuel g
                (_dice_reroll_append temp sr rb g pos).2.2 with
            | error m =>
                rw [hrec] at h
                simp at h
            | ok q =>
                obtain ⟨t', r', p', tr'⟩ := q
                simp only [hrec] at h
                simp only [Except.ok.injEq, Prod.mk.injEq] at h
                obtain ⟨-, -, -, h4⟩ := h
                subst h4
                obtain ⟨hlen, hnd, hdropped⟩ := ih _ _ _ _ _ _ _ hrec
                obtain ⟨hsr_safe, hsr_nd⟩ := selector_apply_props sel temp.elements sr happly
                refine ⟨by simpa using Nat.succ_le_succ hlen, ?_, ?_⟩
                · rw [List.flatten_cons]
                  rw [List.nodup_append]
                  refine ⟨hsr_nd, hnd, ?_⟩
                  intro i hi hi'
                  exact hdropped i
                    (dra_dropped_of_mem temp sr rb g pos i hi (hsr_safe i hi).1) hi'
                · intro i hdrop
                  rw [List.flatten_cons, List.mem_append]
                  rintro (hin | hin)
                  · have := (hsr_safe i hin).2
                    rw [droppedAt] at hdrop
                    rw [hdrop] at this
                    cases this
                  · exact hdropped i (dra_dropped_mono temp sr rb g pos i hdrop) hin

/-- C3: `dice_reroll` terminates with at most `max_rerolls` reroll rounds (the
loop's fuel is exactly the cap), and no element — original or newly appended —
triggers more than one reroll over the whole call: the per-round trigger lists
are globally duplicate-free. -/
theorem C3_dice_reroll_no_retrigger (dice : DiceValues) (sel : SetSelector)
    (max_rerolls : Nat) (keep : Bool) (g : Nat → Nat) (pos : Nat)
    (res : DiceValues) (pos' : Nat) (trace : List (List Nat))
    (h : dice_reroll dice sel max_rerolls keep g pos = .ok (res, pos', trace)) :
    trace.length ≤ max_rerolls ∧ trace.flatten.Nodup := by
  unfold dice_reroll at h
  cases hl : reroll_loop sel dice.copy [] max_rerolls g pos with
  | error m =>
      rw [hl] at h
      simp at h
  | ok q =>
      obtain ⟨temp, rb, pos2, tr⟩ := q
      simp only [hl] at h
      simp only [Except.ok.injEq, Prod.mk.injEq] at h
      obtain ⟨-, -, h3⟩ := h
      subst h3
      obtain ⟨h1, h2, -⟩ := reroll_loop_trace_props sel g max_rerolls _ _ _ _ _ _ _ hl
      exact ⟨h1, h2⟩

/-- Witness for C3 on a concrete exploding d2 roll. -/
theorem C3_dice_reroll_no_retrigger_witness :
    ([[0]] : List (List Nat)).length ≤ 1 ∧ ([[0]] : List (List Nat)).flatten.Nodup :=
  C3_dice_reroll_no_retrigger ⟨2, [⟨2, false, false⟩, ⟨1, false, false⟩], 3⟩
    (.cond (fun x => x == 2)) 1 true (fun _ => 0) 0
    ⟨2, [⟨2, false, false⟩, ⟨1, false, true⟩, ⟨1, false, false⟩], 4⟩ 1 [[0]] (by rfl)

/-- An entry of `rbSet d k v` is either the new binding or an old entry. -/
theorem rbSet_mem (d : RBDict) (k : Nat) (v : RBEntry) (p : Nat × RBEntry)
    (hp : p ∈ rbSet d k v) : p = (k, v) ∨ p ∈ d := by
  unfold rbSet at hp
  split at hp
  · simp only [List.mem_map] at hp
    obtain ⟨q, hq, hpq⟩ := hp
    by_cases hqk : q.1 == k
    · rw [if_pos hqk] at hpq
      exact Or.inl hpq.symm
    · rw [if_neg hqk] at hpq
      rw [← hpq]
      exact Or.inr hq
  · rw [List.mem_append] at hp
    rcases hp with hp | hp
    · exact Or.inr hp
    · simp only [List.mem_singleton] at hp
      exact Or.inl hp

/-- A successful `rbLookup` is a dict entry. -/
theorem rbLookup_mem (d : RBDict) (k : Nat) (v : RBEntry)
    (h : rbLookup d k = some v) : (k, v) ∈ d := by
  unfold rbLookup at h
  cases hf : d.find? (fun p => p.1 == k) with
  | none => rw [hf] at h; cases h
  | some q =>
      rw [hf] at h
      injection h with h
      have hk : q.1 = k := by
        have := List.find?_some hf
        simpa using this
      have hq : q ∈ d := List.mem_of_find?_eq_some hf
      have hkv : (k, v) = q := by
        rw [← hk, ← h]
      rw [hkv]
      exact hq

/-- `rbSet` preserves the lower bound on recorded reroll children. -/
theorem rbge_rbSet (n₀ : Nat) (d : RBDict) (k : Nat) (v : RBEntry)
    (hd : ∀ q ∈ d, ∀ l, q.2 = .blist l → ∀ c ∈ l, n₀ ≤ c)
    (hv : ∀ l, v = .blist l → ∀ c ∈ l, n₀ ≤ c) :
    ∀ q ∈ rbSet d k v, ∀ l, q.2 = .blist l → ∀ c ∈ l, n₀ ≤ c := by
  intro q hq l hl c hc
  rcases rbSet_mem d k v q hq with hq' | hq'
  · subst hq'
    exact hv l hl c hc
  · exact hd q hq' l hl c hc

/-- `rr_step_dict` preserves the lower bound on recorded reroll children when
the appended index respects it. -/
theorem rbge_rr_step_dict (n₀ : Nat) (rb : RBDict) (ai i : Nat)
    (hrb : ∀ q ∈ rb, ∀ l, q.2 = .blist l → ∀ c ∈ l, n₀ ≤ c) (hai : n₀ ≤ ai) :
    ∀ q ∈ rr_step_dict rb ai i, ∀ l, q.2 = .blist l → ∀ c ∈ l, n₀ ≤ c := by
  unfold rr_step_dict
  cases h1 : rbLookup rb i with
  | none =>
      have hrb1 : ∀ q ∈ rbSet rb i (.blist []), ∀ l, q.2 = .blist l →
          ∀ c ∈ l, n₀ ≤ c :=
        rbge_rbSet n₀ rb i (.blist []) hrb
          (by rintro l hl c hc; cases hl; cases hc)
      have hrb2 : ∀ q ∈ rbSet (rbSet rb i (.blist [])) ai (.bint i), ∀ l,
          q.2 = .blist l → ∀ c ∈ l, n₀ ≤ c :=
        rbge_rbSet n₀ _ ai (.bint i) hrb1 (by rintro l hl; cases hl)
      cases h2 : rbLookup (rbSet (rbSet rb i (.blist [])) ai (.bint i)) i with
      | none => simpa [h2] using hrb2
      | some e =>
          cases e with
          | bint b => simpa [h2] using hrb2
          | blist l =>
              simp only [h2]
              refine rbge_rbSet n₀ _ i (.blist (ai :: l)) hrb2 ?_
              rintro l' hl' c hc
              cases hl'
              rcases List.mem_cons.mp hc with hc | hc
              · subst hc; exact hai
              · exact hrb2 (i, .blist l) (rbLookup_mem _ _ _ h2) l rfl c hc
  | some e =>
      cases e with
      | bint b =>
          have hrb2 : ∀ q ∈ rbSet rb ai (.bint b), ∀ l, q.2 = .blist l →
              ∀ c ∈ l, n₀ ≤ c :=
            rbge_rbSet n₀ rb ai (.bint b) hrb (by rintro l hl; cases hl)
          cases h2 : rbLookup (rbSet rb ai (.bint b)) b with
          | none => simpa [h2] using hrb2
          | some e2 =>
              cases e2 with
              | bint b2 => simpa [h2] using hrb2
              | blist l =>
                  simp only [h2]
                  refine rbge_rbSet n₀ _ b (.blist (ai :: l)) hrb2 ?_
                  rintro l' hl' c hc
                  cases hl'
                  rcases List.mem_cons.mp hc with hc | hc
                  · subst hc; exact hai
                  · exact hrb2 (b, .blist l) (rbLookup_mem _ _ _ h2) l rfl c hc
      | blist l0 =>
          have hrb2 : ∀ q ∈ rbSet rb ai (.bint i), ∀ l, q.2 = .blist l →
              ∀ c ∈ l, n₀ ≤ c :=
            rbge_rbSet n₀ rb ai (.bint i) hrb (by rintro l hl; cases hl)
          cases h2 : rbLookup (rbSet rb ai (.bint i)) i with
          | none => simpa [h2] using hrb2
          | some e2 =>
              cases e2 with
              | bint b2 => simpa [h2] using hrb2
              | blist l =>
                  simp only [h2]
                  refine rbge_rbSet n₀ _ i (.blist (ai :: l)) hrb2 ?_
                  rintro l' hl' c hc
                  cases hl'
                  rcases List.mem_cons.mp hc with hc | hc
                  · subst hc; exact hai
                  · exact hrb2 (i, .blist l) (rbLookup_mem _ _ _ h2) l rfl c hc

/-- Every child index recorded by the append loop is at least the starting
appended index (in particular, at least the original dice count). -/
theorem rr_append_loop_rbge (size : Int) (g : Nat → Nat) (n₀ : Nat) :
    ∀ (sr : List Nat) (rb : RBDict) (ai pos : Nat),
      (∀ q ∈ rb, ∀ l, q.2 = .blist l → ∀ c ∈ l, n₀ ≤ c) → n₀ ≤ ai →
      ∀ q ∈ (rr_append_loop size g sr rb ai pos).1, ∀ l, q.2 = .blist l →
        ∀ c ∈ l, n₀ ≤ c := by
  intro sr
  induction sr with
  | nil =>
      intro rb ai pos hrb hai
      exact hrb
  | cons i rest ih =>
      intro rb ai pos hrb hai
      show ∀ q ∈ (rr_append_loop size g rest (rr_step_dict rb ai i) (ai + 1)
          (single_roll size g pos).2).1, ∀ l, q.2 = .blist l → ∀ c ∈ l, n₀ ≤ c
      exact ih (rr_step_dict rb ai i) (ai + 1) (single_roll size g pos).2
        (rbge_rr_step_dict n₀ rb ai i hrb hai) (by omega)

/-- Every new roll produced by the append loop is non-negative when the die
size is. -/
theorem rr_append_loop_rolls_nonneg (size : Int) (hsz : 0 ≤ size) (g : Nat → Nat) :
    ∀ (sr : List Nat) (rb : RBDict) (ai pos : Nat) (v : Int),
      v ∈ (rr_append_loop size g sr rb ai pos).2.1 → 0 ≤ v := by
  intro sr
  induction sr with
  | nil =>
      intro rb ai pos v hv
      exact absurd hv (List.not_mem_nil v)
  | cons i rest ih =>
      intro rb ai pos v hv
      have hv' : v ∈ (single_roll size g pos).1 ::
          (rr_append_loop size g rest (rr_step_dict rb ai i) (ai + 1)
            (single_roll size g pos).2).2.1 := hv
      rcases List.mem_cons.mp hv' with hv'' | hv''
      · subst hv''
        exact single_roll_nonneg size hsz g pos
      · exact ih _ _ _ v hv''

/-- `append_items` length. -/
theorem length_append_items (es : List SetElement) (vs : List Int) :
    (append_items es vs).length = es.length + vs.length := by
  simp [append_items]

/-- Positions past the original list in `append_items` are appended rolls (or
out of range). -/
theorem getD_append_items_ge (es : List SetElement) (vs : List Int) (j : Nat)
    (h : es.length ≤ j) :
    (append_items es vs).getD j elem0 = elem0 ∨
    ∃ v ∈ vs, (append_items es vs).getD j elem0 = addedElem v := by
  rw [List.getD_eq_getElem?_getD, append_items, List.getElem?_append,
      if_neg (by omega)]
  cases hh : (vs.map addedElem)[j - es.length]? with
  | none => exact Or.inl rfl
  | some e =>
      have he : e ∈ vs.map addedElem := List.getElem?_mem hh
      simp only [List.mem_map] at he
      obtain ⟨v, hv, rfl⟩ := he
      exact Or.inr ⟨v, hv, rfl⟩

/-- `drop_indices` keeps every item value. -/
theorem item_drop_indices (es : List SetElement) (idxs : List Nat) (j : Nat) :
    ((drop_indices es idxs).getD j elem0).item = (es.getD j elem0).item := by
  rw [getD_drop_indices]
  split <;> rfl

/-- Reading `get_all_items` positionally reads the element's item. -/
theorem getD_get_all_items (es : List SetElement) (c : Nat) :
    (get_all_items es).getD c 0 = (es.getD c elem0).item := by
  rw [List.getD_eq_getElem?_getD, List.getD_eq_getElem?_getD, get_all_items,
      List.getElem?_map]
  cases h : es[c]? with
  | none => rfl
  | some e => rfl

/-- The C4 loop invariant: through the reroll loop the die size is unchanged,
the element list only grows, all positions past the original count hold
non-negative items, and all recorded reroll children point past the original
count. -/
theorem reroll_loop_inv_C4 (sel : SetSelector) (g : Nat → Nat) (n₀ : Nat)
    (ds : Int) (hsz : 0 ≤ ds) :
    ∀ (fuel : Nat) (temp : DiceValues) (rb : RBDict) (pos : Nat)
      (t : DiceValues) (r : RBDict) (p : Nat) (tr : List (List Nat)),
      reroll_loop sel temp rb fuel g pos = .ok (t, r, p, tr) →
      temp.dice_size = ds →
      n₀ ≤ temp.elements.length →
      (∀ j, n₀ ≤ j → 0 ≤ (temp.elements.getD j elem0).item) →
      (∀ q ∈ rb, ∀ l, q.2 = .blist l → ∀ c ∈ l, n₀ ≤ c) →
      t.dice_size = ds ∧ n₀ ≤ t.elements.length ∧
        (∀ j, n₀ ≤ j → 0 ≤ (t.elements.getD j elem0).item) ∧
        (∀ q ∈ r, ∀ l, q.2 = .blist l → ∀ c ∈ l, n₀ ≤ c) := by
  intro fuel
  induction fuel with
  | zero =>
      intro temp rb pos t r p tr h hds hlen hitems hrb
      simp only [reroll_loop, Except.ok.injEq, Prod.mk.injEq] at h
      obtain ⟨h1, h2, -, -⟩ := h
      subst h1 h2
      exact ⟨hds, hlen, hitems, hrb⟩
  | succ fuel ih =>
      intro temp rb pos t r p tr h hds hlen hitems hrb
      simp only [reroll_loop] at h
      cases happly : sel.apply temp.elements with
      | error m => rw [happly] at h; simp at h
      | ok sr =>
          simp only [happly] at h
          by_cases hempty : sr.isEmpty
          · rw [if_pos hempty] at h
            simp only [Except.ok.injEq, Prod.mk.injEq] at h
            obtain ⟨h1, h2, -, -⟩ := h
            subst h1 h2
            exact ⟨hds, hlen, hitems, hrb⟩
          · rw [if_neg hempty] at h
            cases hrec : reroll_loop sel
                (_dice_reroll_append temp sr rb g pos).1
                (_dice_reroll_append temp sr rb g pos).2.1 fuel g
                (_dice_reroll_append temp sr rb g pos).2.2 with
            | error m => rw [hrec] at h; simp at h
            | ok q =>
                obtain ⟨t', r', p', tr'⟩ := q
                simp only [hrec, Except.ok.injEq, Prod.mk.injEq] at h
                obtain ⟨h1, h2, -, -⟩ := h
                subst h1 h2
                refine ih _ _ _ _ _ _ _ hrec ?_ ?_ ?_ ?_
                · exact hds
                · rw [dra_elements, length_append_items, length_drop_indices]
                  omega
                · intro j hj
                  rw [dra_elements]
                  by_cases hjl : j < temp.elements.length
                  · rw [getD_append_items_lt _ _ _
                        (by rw [length_drop_indices]; exact hjl),
                        item_drop_indices]
                    exact hitems j hj
                  · rcases getD_append_items_ge (drop_indices temp.elements sr) _ j
                        (by rw [length_drop_indices]; omega) with hcase | hcase
                    · rw [hcase]
                      simp [elem0]
                    · obtain ⟨v, hv, hcase⟩ := hcase
                      rw [hcase]
                      simpa [addedElem] using rr_append_loop_rolls_nonneg
                        temp.dice_size (by rw [hds]; exact hsz) g sr rb _ pos v hv
                · exact rr_append_loop_rbge temp.dice_size g n₀ sr rb
                    (get_all_count temp.elements) pos hrb hlen

/-- In-range `insertIdx` splits the list around the new element. -/
theorem insertIdx_eq_take_drop (n : Nat) (x : α) (l : List α) (h : n ≤ l.length) :
    l.insertIdx n x = l.take n ++ x :: l.drop n := by
  induction n generalizing l with
  | zero => simp
  | succ n ihn =>
      cases l with
      | nil => simp at h
      | cons a as =>
          rw [List.insertIdx_succ_cons, ihn as (by simpa using h)]
          simp

/-- `get_remaining` distributes over append. -/
theorem get_remaining_append (a b : List SetElement) :
    get_remaining (a ++ b) = get_remaining a ++ get_remaining b := by
  simp [get_remaining]

/-- Inserting a kept element adds its value to the total. -/
theorem total_insert_item (es : List SetElement) (n : Nat) (v : Int)
    (h : n ≤ es.length) :
    total (insert_item es n v false) = total es + v := by
  rw [total_eq_sum, total_eq_sum, insert_item, insertIdx_eq_take_drop _ _ _ h,
      get_remaining_append]
  have hcons : get_remaining ({ item := v, dropped := false, added := true } ::
      es.drop n) = v :: get_remaining (es.drop n) := by
    simp [get_remaining]
  rw [hcons]
  conv_rhs => rw [← List.take_append_drop n es, get_remaining_append]
  simp only [List.sum_append, List.sum_cons]
  ring

/-- Membership after `insert_item`. -/
theorem mem_insert_item (es : List SetElement) (n : Nat) (v : Int) (d : Bool)
    (e : SetElement) (he : e ∈ insert_item es n v d) :
    e ∈ es ∨ e = { item := v, dropped := d, added := true } := by
  by_cases h : n ≤ es.length
  · rcases (List.mem_insertIdx h).mp he with he' | he'
    · exact Or.inr he'
    · exact Or.inl he'
  · rw [insert_item, List.insertIdx_of_length_lt _ _ _ (by omega)] at he
    exact Or.inl he

/-- The original list is a sublist of any `insert_item` result. -/
theorem sublist_insert_item (es : List SetElement) (n : Nat) (v : Int) (d : Bool) :
    List.Sublist es (insert_item es n v d) := by
  by_cases h : n ≤ es.length
  · rw [insert_item, insertIdx_eq_take_drop _ _ _ h]
    conv_lhs => rw [← List.take_append_drop n es]
    exact List.Sublist.append (List.Sublist.refl _)
      (List.Sublist.cons _ (List.Sublist.refl _))
  · rw [insert_item, List.insertIdx_of_length_lt _ _ _ (by omega)]

/-- `insert_item` never shrinks the list. -/
theorem length_insert_item_ge (es : List SetElement) (n : Nat) (v : Int) (d : Bool) :
    es.length ≤ (insert_item es n v d).length :=
  List.length_le_length_insertIdx es _ n

/-- An in-range `getD` is a member. -/
theorem getD_mem_of_lt (l : List Nat) (j : Nat) (h : j < l.length) :
    l.getD j 0 ∈ l := by
  rw [List.getD_eq_getElem?_getD]
  cases hh : l[j]? with
  | none =>
      rw [List.getElem?_eq_none_iff] at hh
      omega
  | some a =>
      have := List.getElem?_mem hh
      simpa using this

/-- Properties of the inner insertion run of `dice_reroll`'s reconstruction
(one base's children, explode mode): originals survive as a sublist, the list
never shrinks, the total never decreases, and every new element is a kept,
non-negative, `added` element. -/
theorem insert_fold_inner (unmapped : List Int) (children : List Nat) (b : Nat)
    (hvals : ∀ c ∈ children, 0 ≤ unmapped.getD c 0) :
    ∀ (js : List Nat) (es : List SetElement),
      (∀ j ∈ js, j < children.length) → b + 1 ≤ es.length →
      List.Sublist es (js.foldl (fun es j =>
          insert_item es (b + 1) (unmapped.getD (children.getD j 0) 0) false) es) ∧
      es.length ≤ (js.foldl (fun es j =>
          insert_item es (b + 1) (unmapped.getD (children.getD j 0) 0) false) es).length ∧
      total es ≤ total (js.foldl (fun es j =>
          insert_item es (b + 1) (unmapped.getD (children.getD j 0) 0) false) es) ∧
      (∀ e ∈ (js.foldl (fun es j =>
          insert_item es (b + 1) (unmapped.getD (children.getD j 0) 0) false) es),
        e ∈ es ∨ (e.added = true ∧ e.dropped = false ∧ 0 ≤ e.item)) := by
  intro js
  induction js with
  | nil =>
      intro es hjs hb
      exact ⟨List.Sublist.refl _, le_refl _, le_refl _, fun e he => Or.inl he⟩
  | cons j rest ih =>
      intro es hjs hb
      have hj : j < children.length := hjs j (List.mem_cons_self j rest)
      have hv : 0 ≤ unmapped.getD (children.getD j 0) 0 :=
        hvals _ (getD_mem_of_lt children j hj)
      have hstep : ∀ (es1 : List SetElement),
          (j :: rest).foldl (fun es j =>
            insert_item es (b + 1) (unmapped.getD (children.getD j 0) 0) false) es
          = rest.foldl (fun es j =>
            insert_item es (b + 1) (unmapped.getD (children.getD j 0) 0) false)
            (insert_item es (b + 1) (unmapped.getD (children.getD j 0) 0) false) :=
        fun _ => rfl
      rw [hstep es]
      have hb1 : b + 1 ≤ (insert_item es (b + 1)
          (unmapped.getD (children.getD j 0) 0) false).length :=
        le_trans hb (length_insert_item_ge _ _ _ _)
      obtain ⟨hsub, hlen, htot, hmem⟩ := ih
        (insert_item es (b + 1) (unmapped.getD (children.getD j 0) 0) false)
        (fun j' hj' => hjs j' (List.mem_cons_of_mem j hj')) hb1
      refine ⟨(sublist_insert_item _ _ _ _).trans hsub,
              le_trans (length_insert_item_ge _ _ _ _) hlen,
              le_trans (by rw [total_insert_item _ _ _ hb]; omega) htot, ?_⟩
      intro e he
      rcases hmem e he with he' | he'
      · rcases mem_insert_item _ _ _ _ _ he' with he'' | he''
        · exact Or.inl he''
        · exact Or.inr (by rw [he'']; exact ⟨rfl, rfl, hv⟩)
      · exact Or.inr he'

/-- Properties of `dice_reroll`'s full reconstruction fold in explode mode. -/
theorem insert_fold_outer (unmapped : List Int) (n₀ : Nat) :
    ∀ (bm : List (Nat × List Nat)) (es : List SetElement),
      (∀ q ∈ bm, q.1 < n₀ ∧ ∀ c ∈ q.2, 0 ≤ unmapped.getD c 0) →
      n₀ ≤ es.length →
      List.Sublist es (bm.foldl (fun es bc => (List.range bc.2.length).foldl
          (fun es j => insert_item es (bc.1 + 1)
            (unmapped.getD (bc.2.getD j 0) 0) false) es) es) ∧
      n₀ ≤ (bm.foldl (fun es bc => (List.range bc.2.length).foldl
          (fun es j => insert_item es (bc.1 + 1)
            (unmapped.getD (bc.2.getD j 0) 0) false) es) es).length ∧
      total es ≤ total (bm.foldl (fun es bc => (List.range bc.2.length).foldl
          (fun es j => insert_item es (bc.1 + 1)
            (unmapped.getD (bc.2.getD j 0) 0) false) es) es) ∧
      (∀ e ∈ (bm.foldl (fun es bc => (List.range bc.2.length).foldl
          (fun es j => insert_item es (bc.1 + 1)
            (unmapped.getD (bc.2.getD j 0) 0) false) es) es),
        e ∈ es ∨ (e.added = true ∧ e.dropped = false ∧ 0 ≤ e.item)) := by
  intro bm
  induction bm with
  | nil =>
      intro es hbm hn
      exact ⟨List.Sublist.refl _, hn, le_refl _, fun e he => Or.inl he⟩
  | cons bc rest ih =>
      intro es hbm hn
      obtain ⟨hb, hcs⟩ := hbm bc (List.mem_cons_self bc rest)
      obtain ⟨hsub1, hlen1, htot1, hmem1⟩ := insert_fold_inner unmapped bc.2 bc.1
        hcs (List.range bc.2.length) es
        (fun j hj => List.mem_range.mp hj) (by omega)
      obtain ⟨hsub2, hlen2, htot2, hmem2⟩ := ih
        ((List.range bc.2.length).foldl (fun es j => insert_item es (bc.1 + 1)
          (unmapped.getD (bc.2.getD j 0) 0) false) es)
        (fun q hq => hbm q (List.mem_cons_of_mem bc hq))
        (le_trans hn hlen1)
      refine ⟨hsub1.trans hsub2, hlen2, le_trans htot1 htot2, ?_⟩
      intro e he
      rcases hmem2 e he with he' | he'
      · rcases hmem1 e he' with he'' | he''
        · exact Or.inl he''
        · exact Or.inr he''
      · exact Or.inr he'

/-- C4: `dice_reroll` in explode mode (`keep = true`) retains every original
element with its dropped flag (as a sublist), only inserts kept, `added`
elements with non-negative values, and therefore never decreases the total
relative to the pre-explode set. -/
theorem C4_explode_monotone (dice : DiceValues) (sel : SetSelector)
    (max_rerolls : Nat) (g : Nat → Nat) (pos : Nat) (res : DiceValues)
    (pos' : Nat) (trace : List (List Nat)) (hsize : 0 ≤ dice.dice_size)
    (h : dice_reroll dice sel max_rerolls true g pos = .ok (res, pos', trace)) :
    List.Sublist dice.elements res.elements ∧
    (∀ e ∈ res.elements, e ∈ dice.elements ∨
      (e.added = true ∧ e.dropped = false ∧ 0 ≤ e.item)) ∧
    total dice.elements ≤ total res.elements ∧
    res.resultValue = total res.elements := by
  unfold dice_reroll at h
  cases hl : reroll_loop sel dice.copy [] max_rerolls g pos with
  | error m => rw [hl] at h; simp at h
  | ok q =>
      obtain ⟨temp, rb, pos2, tr⟩ := q
      rw [hl] at h
      simp only [Bool.not_true, Bool.and_false, Bool.false_eq_true, if_false,
                 Except.ok.injEq, Prod.mk.injEq] at h
      obtain ⟨hres, -, -⟩ := h
      obtain ⟨hds, hlen, hitems, hrbge⟩ := reroll_loop_inv_C4 sel g
        dice.elements.length dice.dice_size hsize max_rerolls dice.copy [] pos
        temp rb pos2 tr hl rfl (le_refl _)
        (fun j hj => by
          rw [show dice.copy.elements = dice.elements from rfl,
              getD_oob _ _ hj]
          simp [elem0])
        (by rintro q hq; cases hq)
      have hbm : ∀ q ∈ insSort (fun a b => b.1 < a.1)
          (rb.filterMap (fun p =>
            match p.2 with
            | RBEntry.blist children =>
                if p.1 < get_all_count dice.elements then some (p.1, children)
                else none
            | RBEntry.bint _ => none)),
          q.1 < dice.elements.length ∧
            ∀ c ∈ q.2, 0 ≤ (get_all_items temp.elements).getD c 0 := by
        intro q hq
        have hq2 : q ∈ rb.filterMap (fun p =>
            match p.2 with
            | RBEntry.blist children =>
                if p.1 < get_all_count dice.elements then some (p.1, children)
                else none
            | RBEntry.bint _ => none) :=
          (insSort_perm _ _).mem_iff.mp hq
        rw [List.mem_filterMap] at hq2
        obtain ⟨p, hp, hfp⟩ := hq2
        cases hpe : p.2 with
        | bint b =>
            simp only [hpe] at hfp
            exact Option.noConfusion hfp
        | blist children =>
            simp only [hpe] at hfp
            by_cases hlt : p.1 < get_all_count dice.elements
            · rw [if_pos hlt] at hfp
              injection hfp with hfp
              subst hfp
              refine ⟨hlt, ?_⟩
              intro c hc
              rw [getD_get_all_items]
              exact hitems c (hrbge p hp children hpe c hc)
            · rw [if_neg hlt] at hfp
              exact Option.noConfusion hfp
      subst hres
      exact ⟨(insert_fold_outer (get_all_items temp.elements)
                dice.elements.length _ dice.elements hbm (le_refl _)).1,
             (insert_fold_outer (get_all_items temp.elements)
                dice.elements.length _ dice.elements hbm (le_refl _)).2.2.2,
             (insert_fold_outer (get_all_items temp.elements)
                dice.elements.length _ dice.elements hbm (le_refl _)).2.2.1,
             rfl⟩

/-- Witness for C4 on a concrete exploding d2 roll. -/
theorem C4_explode_monotone_witness :
    List.Sublist ([⟨2, false, false⟩, ⟨1, false, false⟩] : List SetElement)
      [⟨2, false, false⟩, ⟨1, false, true⟩, ⟨1, false, false⟩] ∧
    (∀ e ∈ ([⟨2, false, false⟩, ⟨1, false, true⟩, ⟨1, false, false⟩] :
        List SetElement),
      e ∈ ([⟨2, false, false⟩, ⟨1, false, false⟩] : List SetElement) ∨
        (e.added = true ∧ e.dropped = false ∧ 0 ≤ e.item)) ∧
    total [⟨2, false, false⟩, ⟨1, false, false⟩] ≤
      total [⟨2, false, false⟩, ⟨1, false, true⟩, ⟨1, false, false⟩] ∧
    (4 : Int) = total [⟨2, false, false⟩, ⟨1, false, true⟩, ⟨1, false, false⟩] :=
  C4_explode_monotone ⟨2, [⟨2, false, false⟩, ⟨1, false, false⟩], 3⟩
    (.cond (fun x => x == 2)) 1 (fun _ => 0) 0
    ⟨2, [⟨2, false, false⟩, ⟨1, false, true⟩, ⟨1, false, false⟩], 4⟩ 1 [[0]]
    (by norm_num) (by rfl)

/-- Reads below the allocation point are unaffected by `alloc`. -/
theorem readH_alloc_lt (h : Store) (l : List SetElement) (a : Nat)
    (ha : a < h.length) : readH (alloc h l).1 a = readH h a := by
  unfold readH alloc
  rw [List.getD_eq_getElem?_getD, List.getD_eq_getElem?_getD,
      List.getElem?_append, if_pos ha]

/-- Reads at other addresses are unaffected by `writeH`. -/
theorem readH_writeH_ne (h : Store) (a' a : Nat) (l : List SetElement)
    (hne : a ≠ a') : readH (writeH h a' l) a = readH h a := by
  unfold readH writeH
  rw [List.getD_eq_getElem?_getD, List.getD_eq_getElem?_getD,
      List.getElem?_set_ne (Ne.symm hne)]

/-- `writeH` preserves the store size. -/
theorem length_writeH (h : Store) (a : Nat) (l : List SetElement) :
    (writeH h a l).length = h.length := by
  simp [writeH]

/-- One heap-level `_dice_reroll_append` call: the store grows by the one
fresh copy, every pre-existing cell is untouched, and the returned object
lives at the fresh address. -/
theorem dra_H_frame (h : Store) (temp : SetObj) (sr : List Nat) (rb : RBDict)
    (g : Nat → Nat) (pos : Nat) :
    (_dice_reroll_appendH h temp sr rb g pos).1.length = h.length + 1 ∧
    (∀ a, a < h.length →
      readH (_dice_reroll_appendH h temp sr rb g pos).1 a = readH h a) ∧
    (_dice_reroll_appendH h temp sr rb g pos).2.1.addr = h.length := by
  refine ⟨?_, ?_, rfl⟩
  · show (writeH (alloc h (readH h temp.addr)).1 h.length _).length = h.length + 1
    rw [length_writeH]
    simp [alloc]
  · intro a ha
    show readH (writeH (alloc h (readH h temp.addr)).1 h.length _) a = readH h a
    rw [readH_writeH_ne _ _ _ _ (by omega), readH_alloc_lt _ _ _ ha]

/-- The heap-level reroll loop only allocates and writes fresh cells: every
cell existing at entry is unchanged, and the store only grows. -/
theorem reroll_loopH_frame (sel : SetSelector) (g : Nat → Nat) :
    ∀ (fuel : Nat) (h : Store) (temp : SetObj) (rb : RBDict) (pos : Nat)
      (h' : Store) (t' : SetObj) (r' : RBDict) (p' : Nat),
      reroll_loopH sel h temp rb fuel g pos = .ok (h', t', r', p') →
      h.length ≤ h'.length ∧ ∀ a, a < h.length → readH h' a = readH h a := by
  intro fuel
  induction fuel with
  | zero =>
      intro h temp rb pos h' t' r' p' hl
      simp only [reroll_loopH, Except.ok.injEq, Prod.mk.injEq] at hl
      obtain ⟨h1, -, -, -⟩ := hl
      subst h1
      exact ⟨le_refl _, fun a _ => rfl⟩
  | succ fuel ih =>
      intro h temp rb pos h' t' r' p' hl
      simp only [reroll_loopH] at hl
      cases happly : sel.apply (readH h temp.addr) with
      | error m => rw [happly] at hl; simp at hl
      | ok sr =>
          simp only [happly] at hl
          by_cases hempty : sr.isEmpty
          · rw [if_pos hempty] at hl
            simp only [Except.ok.injEq, Prod.mk.injEq] at hl
            obtain ⟨h1, -, -, -⟩ := hl
            subst h1
            exact ⟨le_refl _, fun a _ => rfl⟩
          · rw [if_neg hempty] at hl
            obtain ⟨hgrow, hkeep⟩ := ih _ _ _ _ _ _ _ _ hl
            obtain ⟨hlen, hpres, -⟩ :=
              dra_H_frame h temp sr rb g pos
            rw [hlen] at hgrow
            refine ⟨by omega, ?_⟩
            intro a ha
            rw [hkeep a (by omega), hpres a ha]

/-- A fold of writes to one fixed address leaves every other cell unchanged. -/
theorem foldl_writeH_frame (raddr : Nat) (G : Store → Nat → List SetElement) :
    ∀ (js : List Nat) (acc : Store) (a : Nat), a ≠ raddr →
      readH (js.foldl (fun acc2 j => writeH acc2 raddr (G acc2 j)) acc) a
        = readH acc a := by
  intro js
  induction js with
  | nil => intro acc a ha; rfl
  | cons j rest ih =>
      intro acc a ha
      have hstep : (j :: rest).foldl (fun acc2 j => writeH acc2 raddr (G acc2 j)) acc
          = rest.foldl (fun acc2 j => writeH acc2 raddr (G acc2 j))
              (writeH acc raddr (G acc j)) := rfl
      rw [hstep, ih _ a ha, readH_writeH_ne _ _ _ _ ha]

/-- The nested reconstruction folds of `dice_rerollH` write only at the
result's address. -/
theorem foldl_writeH_nested_frame (raddr : Nat)
    (F : Store → Nat × List Nat → Nat → List SetElement) :
    ∀ (bm : List (Nat × List Nat)) (acc : Store) (a : Nat), a ≠ raddr →
      readH (bm.foldl (fun acc bc => (List.range bc.2.length).foldl
        (fun acc2 j => writeH acc2 raddr (F acc2 bc j)) acc) acc) a
        = readH acc a := by
  intro bm
  induction bm with
  | nil => intro acc a ha; rfl
  | cons bc rest ih =>
      intro acc a ha
      have hstep : (bc :: rest).foldl (fun acc bc => (List.range bc.2.length).foldl
            (fun acc2 j => writeH acc2 raddr (F acc2 bc j)) acc) acc
          = rest.foldl (fun acc bc => (List.range bc.2.length).foldl
              (fun acc2 j => writeH acc2 raddr (F acc2 bc j)) acc)
              ((List.range bc.2.length).foldl
                (fun acc2 j => writeH acc2 raddr (F acc2 bc j)) acc) := rfl
      rw [hstep, ih _ a ha, foldl_writeH_frame raddr (fun acc2 j => F acc2 bc j)
            _ _ a ha]

/-- C9: at heap level, `set_op_keep`, `set_op_count` and `dice_reroll` each
return a fresh result object (a different address than the input) and leave
the input collection's element list — values, order and dropped/added flags —
exactly as it was before the call. -/
theorem C9_no_input_mutation (h : Store) (o : SetObj) (selected : List Nat)
    (invert : Bool) (sel : SetSelector) (max_rerolls : Nat) (keep : Bool)
    (g : Nat → Nat) (pos : Nat) (ho : o.addr < h.length) :
    (readH (set_op_keepH h o selected invert).1 o.addr = readH h o.addr ∧
      (set_op_keepH h o selected invert).2.addr ≠ o.addr) ∧
    (readH (set_op_countH h o selected invert).1 o.addr = readH h o.addr ∧
      (set_op_countH h o selected invert).2.addr ≠ o.addr) ∧
    (∀ h' res pos',
      dice_rerollH h o sel max_rerolls keep g pos = .ok (h', res, pos') →
      readH h' o.addr = readH h o.addr ∧ res.addr ≠ o.addr) := by
  refine ⟨⟨?_, ?_⟩, ⟨?_, ?_⟩, ?_⟩
  · exact Eq.trans
      (readH_writeH_ne (alloc h (readH h o.addr)).1 h.length o.addr _ (by omega))
      (readH_alloc_lt h _ o.addr ho)
  · show h.length ≠ o.addr
    omega
  · exact Eq.trans
      (readH_writeH_ne (alloc h (readH h o.addr)).1 h.length o.addr _ (by omega))
      (readH_alloc_lt h _ o.addr ho)
  · show h.length ≠ o.addr
    omega
  · intro h' res pos' hdr
    simp only [dice_rerollH] at hdr
    cases hl : reroll_loopH sel (copyH h o).1 (copyH h o).2 [] max_rerolls g pos with
    | error m => rw [hl] at hdr; simp at hdr
    | ok q =>
        obtain ⟨h1, temp, rb, pos2⟩ := q
        rw [hl] at hdr
        simp only [Except.ok.injEq, Prod.mk.injEq] at hdr
        obtain ⟨hh', hres, -⟩ := hdr
        subst hh'
        subst hres
        obtain ⟨hgrow, hkeep⟩ :=
          reroll_loopH_frame sel g max_rerolls _ _ _ _ _ _ _ _ hl
        have hlen0 : (copyH h o).1.length = h.length + 1 := by
          simp [copyH, alloc]
        have ho1 : o.addr < h1.length := by omega
        have hne : o.addr ≠ h1.length := by omega
        have hbase : readH (copyH h1 o).1 o.addr = readH h o.addr := by
          rw [show (copyH h1 o).1 = (alloc h1 (readH h1 o.addr)).1 from rfl,
              readH_alloc_lt _ _ _ ho1, hkeep o.addr (by omega),
              show (copyH h o).1 = (alloc h (readH h o.addr)).1 from rfl,
              readH_alloc_lt _ _ _ ho]
        refine ⟨?_, ?_⟩
        · refine Eq.trans (foldl_writeH_nested_frame h1.length
            (fun acc2 bc j => insert_item (readH acc2 h1.length) (bc.1 + 1)
              ((get_all_items (readH (copyH h1 o).1 temp.addr)).getD
                (bc.2.getD j 0) 0) ((j != 0) && !keep)) _ _ o.addr hne) ?_
          cases keep with
          | true => exact hbase
          | false =>
              exact Eq.trans (readH_writeH_ne _ _ _ _ hne) hbase
        · show h1.length ≠ o.addr
          omega

/-- Witness for C9 on a one-element heap and a concrete exploding d1 roll. -/
theorem C9_no_input_mutation_witness :
    (readH (set_op_keepH [[⟨1, false, false⟩]] ⟨0, 1, none⟩ [0] false).1 0 =
       readH [[⟨1, false, false⟩]] 0) ∧
    (readH (set_op_countH [[⟨1, false, false⟩]] ⟨0, 1, none⟩ [0] false).1 0 =
       readH [[⟨1, false, false⟩]] 0) ∧
    (readH [[⟨1, false, false⟩], [⟨1, false, false⟩],
            [⟨1, true, false⟩, ⟨1, false, true⟩],
            [⟨1, false, false⟩, ⟨1, false, true⟩]] 0 =
       readH [[⟨1, false, false⟩]] 0) ∧
    (3 : Nat) ≠ 0 :=
  ⟨(C9_no_input_mutation [[⟨1, false, false⟩]] ⟨0, 1, none⟩ [0] false
      (.cond (fun x => x == 1)) 1 true (fun _ => 0) 0 (by decide)).1.1,
   (C9_no_input_mutation [[⟨1, false, false⟩]] ⟨0, 1, none⟩ [0] false
      (.cond (fun x => x == 1)) 1 true (fun _ => 0) 0 (by decide)).2.1.1,
   ((C9_no_input_mutation [[⟨1, false, false⟩]] ⟨0, 1, none⟩ [0] false
      (.cond (fun x => x == 1)) 1 true (fun _ => 0) 0 (by decide)).2.2
      [[⟨1, false, false⟩], [⟨1, false, false⟩],
       [⟨1, true, false⟩, ⟨1, false, true⟩],
       [⟨1, false, false⟩, ⟨1, false, true⟩]] ⟨3, 1, some 2⟩ 1 (by rfl)).1,
   ((C9_no_input_mutation [[⟨1, false, false⟩]] ⟨0, 1, none⟩ [0] false
      (.cond (fun x => x == 1)) 1 true (fun _ => 0) 0 (by decide)).2.2
      [[⟨1, false, false⟩], [⟨1, false, false⟩],
       [⟨1, true, false⟩, ⟨1, false, true⟩],
       [⟨1, false, false⟩, ⟨1, false, true⟩]] ⟨3, 1, some 2⟩ 1 (by rfl)).2⟩

/-- Witness for C5 (amended) on a concrete set and selection. -/
theorem C5_keep_drop_complementary_witness :
    (dropped_indices (set_op_keep
        ⟨[⟨1, true, false⟩, ⟨2, false, false⟩, ⟨5, false, false⟩], none⟩
        [2] false).elements).toFinset ∪
      (dropped_indices (set_op_keep
        ⟨[⟨1, true, false⟩, ⟨2, false, false⟩, ⟨5, false, false⟩], none⟩
        [2] true).elements).toFinset
      = Finset.range 3 ∧
    (dropped_indices (set_op_keep
        ⟨[⟨1, true, false⟩, ⟨2, false, false⟩, ⟨5, false, false⟩], none⟩
        [2] false).elements).toFinset ∩
      (dropped_indices (set_op_keep
        ⟨[⟨1, true, false⟩, ⟨2, false, false⟩, ⟨5, false, false⟩], none⟩
        [2] true).elements).toFinset
      = (dropped_indices
          ([⟨1, true, false⟩, ⟨2, false, false⟩, ⟨5, false, false⟩] :
            List SetElement)).toFinset :=
  C5_keep_drop_complementary
    ⟨[⟨1, true, false⟩, ⟨2, false, false⟩, ⟨5, false, false⟩], none⟩
    (.int 1) [2] (by rfl)

end DiceDetails

namespace Dice

/-- C2 (supporting evidence for the code bug): on the spec's deterministic
input `12 P 2` the lexer of dice.py classifies `P` as `MISMATCH`, so
`symbolize` — the first step of `roll` — raises `RuntimeError` instead of
producing a tree with value `132` (the repository's own test
`test_dice.py::test_combinatorics` expects `132`). -/
theorem C2_roll_12P2_raises :
    symbolize "12 P 2" = .error "Couldn't interpret <P> from: 12 P 2" := by rfl

/-- C7: `repeat(expr, n)` yields a multi-result recording exactly `n`
`FlatExpr` sub-results; `n = 0` gives an empty collection whose value is
`None`; a negative or non-integral `n` raises `ValueError`. -/
theorem C7_repeat_function_spec (first : FlatExpr) (redo : Nat → FlatExpr)
    (y : PyNum) :
    (∀ n : Int, force_integral y "repetitions" = .ok n → 0 ≤ n →
      ∃ m, _repeat_function first y redo = .ok m ∧ (m.items.length : Int) = n ∧
        (n = 0 → m.items = [] ∧ m.get_value = none)) ∧
    ((y.toRat < 0 ∨ y.isIntegral = false) →
      ∃ msg, _repeat_function first y redo = .error msg) := by
  constructor
  · intro n hn hnn
    by_cases hz : n = 0
    · subst hz
      refine ⟨mkMultiExpr [], ?_, by simp [mkMultiExpr], fun _ => ⟨rfl, by rfl⟩⟩
      simp [_repeat_function, hn, mkMultiExpr]
    · have hneg : ¬ n < 0 := not_lt.mpr hnn
      refine ⟨mkMultiExpr (first :: (List.range (n - 1).toNat).map redo), ?_, ?_, ?_⟩
      · simp [_repeat_function, hn, hneg, hz]
      · simp only [mkMultiExpr, List.length_cons, List.length_map, List.length_range]
        omega
      · intro h; exact absurd h hz
  · intro hbad
    cases hfi : force_integral y "repetitions" with
    | error m => exact ⟨m, by simp [_repeat_function, hfi]⟩
    | ok n =>
        obtain ⟨hint, hval⟩ := force_integral_ok_val y "repetitions" n hfi
        have hneg : n < 0 := by
          rcases hbad with h | h
          · rw [hval] at h
            exact_mod_cast h
          · rw [hint] at h; cases h
        exact ⟨"Cannot repeat negative times", by simp [_repeat_function, hfi, hneg]⟩

/-- Witness for C7 at `n = 3` and at `n = 0`. -/
theorem C7_repeat_function_spec_witness :
    (∃ m, _repeat_function { value := some 7, description := "7", subrepr := "7" }
        (.int 3) (fun _ => { value := some 7, description := "7", subrepr := "7" })
        = .ok m ∧ (m.items.length : Int) = 3 ∧
        ((3 : Int) = 0 → m.items = [] ∧ m.get_value = none)) ∧
    (∃ m, _repeat_function { value := some 7, description := "7", subrepr := "7" }
        (.int 0) (fun _ => { value := some 7, description := "7", subrepr := "7" })
        = .ok m ∧ (m.items.length : Int) = 0 ∧
        ((0 : Int) = 0 → m.items = [] ∧ m.get_value = none)) :=
  ⟨(C7_repeat_function_spec { value := some 7, description := "7", subrepr := "7" }
      (fun _ => { value := some 7, description := "7", subrepr := "7" })
      (.int 3)).1 3 rfl (by norm_num),
   (C7_repeat_function_spec { value := some 7, description := "7", subrepr := "7" }
      (fun _ => { value := some 7, description := "7", subrepr := "7" })
      (.int 0)).1 0 rfl le_rfl⟩

end Dice

end MidBot
